import Mathlib

/-! LayerAndroid: the layer tree of the Android compositor.

A shallow embedding of `Source/WebCore/platform/graphics/android/LayerAndroid.cpp`.

* A layer tree is a value of the nested inductive type `LayerAndroid`: the member
  variables of one node (`LayerData`) and the ordered list of owned children.
* A `LayerAndroid*` pointing into a tree is a `LayerRef`: the list of child indices
  leading from the root of the tree to the node.
* `float` and `double` values are rationals; an `SkRegion` is the finite set of the
  integer pixels it covers.
* Collaborators that live outside the file (the animation objects, the render groups,
  the canvas) are parameters or small models, each marked as such.
-/

namespace WebCore

/-! ## Scalar and geometry types -/

/-- A `float` (Skia's `SkScalar`) or `double` value. -/
abbrev SkScalar := Rat

/-- An `SkRegion`: the set of integer pixels it covers. -/
abbrev SkRegion := Finset (Int × Int)

/-- The type `IntPoint`. -/
structure IntPoint where
  x : Int := 0
  y : Int := 0
deriving DecidableEq, Repr

/-- The type `SkPoint`. -/
structure SkPoint where
  fX : SkScalar := 0
  fY : SkScalar := 0
deriving DecidableEq, Repr

/-- The type `SkSize`. -/
structure SkSize where
  fWidth : SkScalar := 0
  fHeight : SkScalar := 0
deriving DecidableEq, Repr

/-- The type `FloatRect`. -/
structure FloatRect where
  x : SkScalar := 0
  y : SkScalar := 0
  width : SkScalar := 0
  height : SkScalar := 0
deriving DecidableEq, Repr

/-- The 4x4 matrix `TransformationMatrix`; a default-constructed one is the identity. -/
structure TransformationMatrix where
  m11 : SkScalar := 1
  m12 : SkScalar := 0
  m13 : SkScalar := 0
  m14 : SkScalar := 0
  m21 : SkScalar := 0
  m22 : SkScalar := 1
  m23 : SkScalar := 0
  m24 : SkScalar := 0
  m31 : SkScalar := 0
  m32 : SkScalar := 0
  m33 : SkScalar := 1
  m34 : SkScalar := 0
  m41 : SkScalar := 0
  m42 : SkScalar := 0
  m43 : SkScalar := 0
  m44 : SkScalar := 1
deriving DecidableEq, Repr

/-- The recorded content `SkPicture`, shared by reference: `pictureId` stands for the
address of the object. -/
structure SkPicture where
  pictureId : Nat
  width : Int
  height : Int
deriving DecidableEq, Repr

/-- The enumeration `LayerAndroid::LayerType`. -/
inductive LayerType where
  | UndefinedLayer
  | WebCoreLayer
  | UILayer
  | NavCacheLayer
deriving DecidableEq, Repr

/-- The enumeration `LayerAndroid::SubclassType`; the source names `StandardLayer` and
`CopyLayer`, the other enumerators are kept by number. -/
inductive SubclassType where
  | StandardLayer
  | CopyLayer
  | other (n : Nat)
deriving DecidableEq, Repr

/-! ## Animations -/

/-- Modelled from the spec: an `AndroidAnimation` has a name and an animated-property
kind (`AnimatedPropertyID`, an `int` in the map key); `animId` stands for the address of
the reference-counted object. Its evaluation function is a parameter, see `AnimationEnv`. -/
structure AndroidAnimation where
  name : String
  type : Int
  animId : Nat := 0
deriving DecidableEq, Repr

/-- The key type `pair<String, int>` of `KeyframesMap`. -/
abbrev AnimKey := String × Int

/-- Modelled from the spec: `KeyframesMap` is a hash map from (name, kind) to the
animation; the list gives the entries in iteration order. -/
abbrev KeyframesMap := List (AnimKey × AndroidAnimation)

/-- Modelled from the spec: `HashMap::add` inserts the pair when the key is absent and
leaves the map as it is when the key is already present. -/
def KeyframesMap.add (m : KeyframesMap) (key : AnimKey) (anim : AndroidAnimation) :
    KeyframesMap :=
  if m.any (fun e => e.1 == key) then m else m ++ [(key, anim)]

/-- Modelled from the spec: `HashMap::remove` deletes the entry stored under the key. -/
def KeyframesMap.remove (m : KeyframesMap) (key : AnimKey) : KeyframesMap :=
  m.filter (fun e => !(e.1 == key))

/-! ## The layer node -/

/-- A pointer to a node of a tree: the child indices on the way down from the root. -/
abbrev LayerRef := List Nat

/-- The member variables of one `LayerAndroid` (those of the base class `Layer`
included), the children apart. The default values are those the constructor
`LayerAndroid(RenderLayer*, SubclassType)` gives; `m_hasRunningAnimations` and
`m_drawOpacity` are not set by any constructor of the file, and `m_clippingRect` is
default-constructed. -/
structure LayerData where
  -- base class Layer
  m_opacity : SkScalar := 1
  m_size : SkSize := {}
  m_position : SkPoint := {}
  m_anchorPoint : SkPoint := { fX := 1/2, fY := 1/2 }
  -- LayerAndroid
  m_haveClip : Bool := false
  m_isIframe : Bool := false
  m_backfaceVisibility : Bool := true
  m_visible : Bool := true
  m_preserves3D : Bool := false
  m_anchorPointZ : SkScalar := 0
  m_recordingPicture : Option SkPicture := none
  m_zValue : SkScalar := 0
  m_uniqueId : Int
  m_imageCRC : Nat := 0
  m_pictureUsed : Nat := 0
  m_scale : SkScalar := 1
  m_lastComputeTextureSize : SkScalar := 0
  m_owningLayer : Option Nat := none
  m_type : LayerType := LayerType.WebCoreLayer
  m_subclassType : SubclassType := SubclassType.StandardLayer
  m_hasText : Bool := true
  m_layerGroup : Option Nat := none
  m_backgroundColor : Nat := 0
  m_dirtyRegion : SkRegion := ∅
  m_transform : TransformationMatrix := {}
  m_childrenTransform : TransformationMatrix := {}
  m_drawTransform : TransformationMatrix := {}
  m_iframeOffset : IntPoint := {}
  m_offset : IntPoint := {}
  m_iframeScrollOffset : IntPoint := {}
  m_animations : KeyframesMap := []
  m_hasRunningAnimations : Bool := false
  m_drawOpacity : SkScalar := 0
  m_clippingRect : FloatRect := {}
  /-- The result of the virtual `isFixed()`. -/
  isFixed : Bool := false

/-- A layer with the subtree it owns. -/
inductive LayerAndroid where
  | node (d : LayerData) (children : List LayerAndroid) : LayerAndroid

namespace LayerAndroid

/-- The member variables of the root node. -/
def data : LayerAndroid → LayerData
  | node d _ => d

/-- The vector `m_children`. -/
def children : LayerAndroid → List LayerAndroid
  | node _ cs => cs

/-- The accessor `uniqueId()`. -/
def uniqueId (l : LayerAndroid) : Int := l.data.m_uniqueId

/-- The accessor `zValue()`. -/
def zValue (l : LayerAndroid) : SkScalar := l.data.m_zValue

/-- The accessor `countChildren()`. -/
def countChildren (l : LayerAndroid) : Nat := l.children.length

/-- The accessor `getChild(i)`. -/
def getChild (l : LayerAndroid) (i : Nat) : Option LayerAndroid := l.children[i]?

/-- Dereference a pointer into the tree. -/
def deref : LayerAndroid → LayerRef → Option LayerAndroid
  | l, [] => some l
  | node _ cs, i :: p =>
    match cs[i]? with
    | some c => deref c p
    | none => none

mutual
/-- The method `LayerAndroid::findById(int match)`: the result points into the tree the search
starts from, `none` is the null pointer. -/
def findById : LayerAndroid → Int → Option LayerRef
  | node d cs, m =>
    if d.m_uniqueId = m then some []
    else findByIdFrom cs 0 m
/-- The loop of `findById` over the children, from child `i` on. -/
def findByIdFrom : List LayerAndroid → Nat → Int → Option LayerRef
  | [], _, _ => none
  | c :: cs, i, m =>
    match findById c m with
    | some result => some (i :: result)
    | none => findByIdFrom cs (i + 1) m
end

mutual
/-- The nodes of a tree in depth-first preorder (a node before its children, the children
in index order), each with the pointer to it. -/
def preorder : LayerAndroid → List (LayerRef × LayerAndroid)
  | node d cs => ([], node d cs) :: preorderFrom cs 0
/-- The preorder of the children from child `i` on. -/
def preorderFrom : List LayerAndroid → Nat → List (LayerRef × LayerAndroid)
  | [], _ => []
  | c :: cs, i => (preorder c).map (fun e => (i :: e.1, e.2)) ++ preorderFrom cs (i + 1)
end

/-! ## Deep copy -/

/-- Modelled from the spec: the copy constructor of the base class `Layer` (Layer.cpp is
not part of the file) copies the geometry of the source, opacity, size, position and
anchor point, and starts without children. `raw` is the storage of the new object: a
member no constructor writes keeps the value found there. -/
def copyLayerBase (raw layer : LayerData) : LayerData :=
  { raw with
    m_opacity := layer.m_opacity
    m_size := layer.m_size
    m_position := layer.m_position
    m_anchorPoint := layer.m_anchorPoint }

/-- The loop of the copy constructor over `layer.m_animations`, adding every entry to the
map of the new layer. -/
def copyAnimations : List (AnimKey × AndroidAnimation) → KeyframesMap → KeyframesMap
  | [], m => m
  | it :: rest, m => copyAnimations rest (m.add it.1 it.2)

/-- The member initialisers and the body of the copy constructor
`LayerAndroid(const LayerAndroid& layer, SubclassType subclassType)`, the loop over the
children apart (the reference counts of the image and of the picture are not modelled). -/
def copyData (raw layer : LayerData) (subclassType : SubclassType) : LayerData :=
  { copyLayerBase raw layer with
    m_haveClip := layer.m_haveClip
    m_isIframe := layer.m_isIframe
    m_zValue := layer.m_zValue
    m_uniqueId := layer.m_uniqueId
    m_owningLayer := layer.m_owningLayer
    m_type := LayerType.UILayer
    m_layerGroup := none
    m_imageCRC := layer.m_imageCRC
    m_transform := layer.m_transform
    m_backfaceVisibility := layer.m_backfaceVisibility
    m_visible := layer.m_visible
    m_backgroundColor := layer.m_backgroundColor
    m_subclassType :=
      if subclassType = SubclassType.CopyLayer then layer.m_subclassType else subclassType
    m_iframeOffset := layer.m_iframeOffset
    m_offset := layer.m_offset
    m_iframeScrollOffset := layer.m_iframeScrollOffset
    m_recordingPicture := layer.m_recordingPicture
    m_preserves3D := layer.m_preserves3D
    m_anchorPointZ := layer.m_anchorPointZ
    m_drawTransform := layer.m_drawTransform
    m_childrenTransform := layer.m_childrenTransform
    m_pictureUsed := layer.m_pictureUsed
    m_dirtyRegion := layer.m_dirtyRegion
    m_scale := layer.m_scale
    m_lastComputeTextureSize := 0
    m_animations := copyAnimations layer.m_animations []
    m_hasText := layer.m_hasText
    m_clippingRect := {}
    isFixed := layer.isFixed }

mutual
/-- The copy constructor `LayerAndroid(const LayerAndroid& layer, SubclassType)`: the new
node, then `addChild(layer.getChild(i)->copy())` for every child. -/
def copyConstruct (raw : LayerData) : LayerAndroid → SubclassType → LayerAndroid
  | node d cs, subclassType => node (copyData raw d subclassType) (copyChildren raw cs)
/-- The loop of the copy constructor over the children; `copy()` is
`new LayerAndroid(*this)`, the subclass type defaulting to `CopyLayer`. -/
def copyChildren (raw : LayerData) : List LayerAndroid → List LayerAndroid
  | [] => []
  | c :: cs => copyConstruct raw c SubclassType.CopyLayer :: copyChildren raw cs
end

/-- The method `copy()` of the header: `new LayerAndroid(*this)`. -/
def copy (raw : LayerData) (l : LayerAndroid) : LayerAndroid :=
  copyConstruct raw l SubclassType.CopyLayer

end LayerAndroid

/-- The geometry inputs of a node named by the deep-copy contract. -/
structure GeometryInputs where
  transform : TransformationMatrix
  childrenTransform : TransformationMatrix
  anchorPointZ : SkScalar
  offset : IntPoint
  iframeOffset : IntPoint
  iframeScrollOffset : IntPoint
  backgroundColor : Nat
  haveClip : Bool
  isIframe : Bool
  backfaceVisibility : Bool
  preserves3D : Bool
deriving DecidableEq

namespace LayerAndroid

/-- The geometry inputs of the root node of a tree. -/
def geometryInputs (l : LayerAndroid) : GeometryInputs :=
  { transform := l.data.m_transform
    childrenTransform := l.data.m_childrenTransform
    anchorPointZ := l.data.m_anchorPointZ
    offset := l.data.m_offset
    iframeOffset := l.data.m_iframeOffset
    iframeScrollOffset := l.data.m_iframeScrollOffset
    backgroundColor := l.data.m_backgroundColor
    haveClip := l.data.m_haveClip
    isIframe := l.data.m_isIframe
    backfaceVisibility := l.data.m_backfaceVisibility
    preserves3D := l.data.m_preserves3D }

/-- The set of animation keys (name, kind) of the root node of a tree. -/
def animationKeys (l : LayerAndroid) : Finset AnimKey :=
  (l.data.m_animations.map Prod.fst).toFinset

/-- What the deep-copy contract compares at a node: the unique id, the number of children,
the geometry inputs and the set of animation keys. -/
def copyView (l : LayerAndroid) : Int × Nat × GeometryInputs × Finset AnimKey :=
  (l.uniqueId, l.countChildren, geometryInputs l, animationKeys l)

/-- The derived state of the root node of a tree: the absolute draw transform, the draw
scale, the visible flag and the group. -/
def derivedState (l : LayerAndroid) :
    TransformationMatrix × SkScalar × Bool × Option Nat :=
  (l.data.m_drawTransform, l.data.m_scale, l.data.m_visible, l.data.m_layerGroup)

/-! ## The animation set of a node -/

/-- The method `LayerAndroid::removeAnimationsForProperty`: collect the keys of the entries
whose animation has the property, then remove every collected key. -/
def removeAnimationsForProperty : LayerAndroid → Int → LayerAndroid
  | node d cs, property =>
    let toDelete := (d.m_animations.filter (fun it => it.2.type == property)).map Prod.fst
    node { d with m_animations := toDelete.foldl KeyframesMap.remove d.m_animations } cs

/-- The method `LayerAndroid::removeAnimationsForKeyframes`: collect the keys of the entries
whose animation has the name, then remove every collected key. -/
def removeAnimationsForKeyframes : LayerAndroid → String → LayerAndroid
  | node d cs, name =>
    let toDelete := (d.m_animations.filter (fun it => it.2.name == name)).map Prod.fst
    node { d with m_animations := toDelete.foldl KeyframesMap.remove d.m_animations } cs

/-- The method `LayerAndroid::addAnimation`. -/
def addAnimation (l : LayerAndroid) (anim : AndroidAnimation) : LayerAndroid :=
  let key : AnimKey := (anim.name, anim.type)
  match removeAnimationsForProperty l anim.type with
  | node d cs => node { d with m_animations := d.m_animations.add key anim } cs

/-- The animation set of a node is keyed when every animation is stored under its own
(name, kind). -/
def Keyed (m : KeyframesMap) : Prop :=
  ∀ e ∈ m, e.1 = (e.2.name, e.2.type)

end LayerAndroid

/-! ## Animation evaluation -/

/-- The collaborator `AndroidAnimation::evaluate(layer, time)`, which lives outside the
file. It is given the animation, the layer it is attached to and the time; it may write
the layer and the state `σ` of the animation objects, and it reports whether the
animation is still running. -/
structure AnimationEnv (σ : Type) where
  evaluate : AndroidAnimation → LayerData → SkScalar → σ → Bool × LayerData × σ

/-- One call of `AndroidAnimation::evaluate`: the layer it was made for (a pointer relative
to the root of the pass), the animation, the time handed over and the value returned. -/
structure EvaluateCall where
  layer : LayerRef
  anim : AndroidAnimation
  time : SkScalar
  running : Bool
deriving DecidableEq

/-- The call moved below child `i`. -/
def EvaluateCall.under (i : Nat) (c : EvaluateCall) : EvaluateCall :=
  { c with layer := i :: c.layer }

/-- What a call of `evaluate` was made for: the layer, the animation and the time. -/
def EvaluateCall.subject (c : EvaluateCall) : LayerRef × AndroidAnimation × SkScalar :=
  (c.layer, c.anim, c.time)

/-- The outcome of `evaluateAnimations(time)`: the value returned, the tree and the
animation state afterwards, and the calls of `evaluate` made, in order. -/
structure Evaluated (σ : Type) where
  result : Bool
  layer : LayerAndroid
  world : σ
  calls : List EvaluateCall

/-- The outcome of the loop of `evaluateAnimations(time)` over the children. -/
structure EvaluatedChildren (σ : Type) where
  hasRunningAnimations : Bool
  children : List LayerAndroid
  world : σ
  calls : List EvaluateCall

namespace LayerAndroid

/-- The loop of `evaluateAnimations(time)` over the local animations:
`m_hasRunningAnimations |= (it->second)->evaluate(currentLayer, time)` for every entry.
The animation set and `m_hasRunningAnimations` are private to the layer: `evaluate`
does not write them. -/
def evaluateLocalAnimations {σ : Type} (env : AnimationEnv σ) (time : SkScalar) :
    List (AnimKey × AndroidAnimation) → LayerData → σ → LayerData × σ × List EvaluateCall
  | [], d, w => (d, w, [])
  | it :: rest, d, w =>
    let r := env.evaluate it.2 d time w
    let d1 : LayerData :=
      { r.2.1 with
        m_animations := d.m_animations
        m_hasRunningAnimations := d.m_hasRunningAnimations || r.1 }
    let out := evaluateLocalAnimations env time rest d1 r.2.2
    (out.1, out.2.1, { layer := [], anim := it.2, time := time, running := r.1 } :: out.2.2)

mutual
/-- The method `LayerAndroid::evaluateAnimations(double time)`. -/
def evaluateAnimations {σ : Type} (env : AnimationEnv σ) (time : SkScalar) :
    LayerAndroid → σ → Evaluated σ
  | node d cs, w =>
    let kids := evaluateAnimationsFrom env time cs 0 false w
    let d0 : LayerData := { d with m_hasRunningAnimations := false }
    let own := evaluateLocalAnimations env time d0.m_animations d0 kids.world
    { result := kids.hasRunningAnimations || own.1.m_hasRunningAnimations
      layer := node own.1 kids.children
      world := own.2.1
      calls := kids.calls ++ own.2.2 }
/-- The loop of `evaluateAnimations(time)` over the children, from child `i` on, with the
current value of the local `hasRunningAnimations`. -/
def evaluateAnimationsFrom {σ : Type} (env : AnimationEnv σ) (time : SkScalar) :
    List LayerAndroid → Nat → Bool → σ → EvaluatedChildren σ
  | [], _, hasRunningAnimations, w =>
    { hasRunningAnimations := hasRunningAnimations, children := [], world := w, calls := [] }
  | c :: cs, i, hasRunningAnimations, w =>
    let r := evaluateAnimations env time c w
    let rest := evaluateAnimationsFrom env time cs (i + 1)
      (if r.result then true else hasRunningAnimations) r.world
    { hasRunningAnimations := rest.hasRunningAnimations
      children := r.layer :: rest.children
      world := rest.world
      calls := r.calls.map (EvaluateCall.under i) ++ rest.calls }
end

mutual
/-- The animations attached to the nodes of a tree, each with the pointer to its node: all
of a node's descendants first, child by child, then the node's own animations. -/
def attachedAnimations : LayerAndroid → List (LayerRef × AndroidAnimation)
  | node d cs => attachedAnimationsFrom cs 0 ++ d.m_animations.map (fun it => ([], it.2))
/-- The animations attached below the children from child `i` on. -/
def attachedAnimationsFrom : List LayerAndroid → Nat → List (LayerRef × AndroidAnimation)
  | [], _ => []
  | c :: cs, i =>
    (attachedAnimations c).map (fun e => (i :: e.1, e.2)) ++ attachedAnimationsFrom cs (i + 1)
end

/-! ## Dirty regions -/

/-- Modelled from the spec: `markAsDirty(dirtyArea)` of the header ORs the area into the
dirty region of the layer, `m_dirtyRegion.op(dirtyArea, SkRegion::kUnion_Op)`. -/
def markAsDirty : LayerAndroid → SkRegion → LayerAndroid
  | node d cs, dirtyArea => node { d with m_dirtyRegion := d.m_dirtyRegion ∪ dirtyArea } cs

/-- Write through a pointer: the tree in which the node the pointer leads to is replaced
by its image under `f`. -/
def modifyAt (f : LayerAndroid → LayerAndroid) : LayerAndroid → LayerRef → LayerAndroid
  | l, [] => f l
  | node d cs, i :: p =>
    match cs[i]? with
    | some c => node d (cs.set i (modifyAt f c p))
    | none => node d cs

mutual
/-- The method `LayerAndroid::mergeInvalsInto(replacementTree)`, called on the first
argument: the result is the replacement tree afterwards. The layer it is called on is
only read. -/
def mergeInvalsInto : LayerAndroid → LayerAndroid → LayerAndroid
  | node d cs, replacementTree =>
    let replacementTree := mergeInvalsIntoFrom cs replacementTree
    match findById replacementTree d.m_uniqueId with
    | some replacementLayer =>
      modifyAt (fun l => markAsDirty l d.m_dirtyRegion) replacementTree replacementLayer
    | none => replacementTree
/-- The loop of `mergeInvalsInto` over the children. -/
def mergeInvalsIntoFrom : List LayerAndroid → LayerAndroid → LayerAndroid
  | [], replacementTree => replacementTree
  | c :: cs, replacementTree => mergeInvalsIntoFrom cs (mergeInvalsInto c replacementTree)
end

mutual
/-- The method `LayerAndroid::clearDirtyRegion`. -/
def clearDirtyRegion : LayerAndroid → LayerAndroid
  | node d cs => node { d with m_dirtyRegion := ∅ } (clearDirtyRegionFrom cs)
/-- The loop of `clearDirtyRegion` over the children. -/
def clearDirtyRegionFrom : List LayerAndroid → List LayerAndroid
  | [] => []
  | c :: cs => clearDirtyRegion c :: clearDirtyRegionFrom cs
end

mutual
/-- The tree in which the node at every pointer `q` has the region `g q` united into its
dirty region (used to describe the effect of a damage merge). -/
def addDirty : (LayerRef → SkRegion) → LayerAndroid → LayerAndroid
  | g, node d cs =>
    node { d with m_dirtyRegion := d.m_dirtyRegion ∪ g [] } (addDirtyFrom g cs 0)
/-- The children from child `i` on, with the regions united in. -/
def addDirtyFrom : (LayerRef → SkRegion) → List LayerAndroid → Nat → List LayerAndroid
  | _, [], _ => []
  | g, c :: cs, i => addDirty (fun q => g (i :: q)) c :: addDirtyFrom g cs (i + 1)
end

/-- The damage the listed nodes bring to the node of the replacement tree at `q`: the union
of the dirty regions of those whose id `findById` resolves to `q`. -/
def damageFor (replacementTree : LayerAndroid) :
    List (LayerRef × LayerAndroid) → LayerRef → SkRegion
  | [], _ => ∅
  | e :: rest, q =>
    (if findById replacementTree e.2.uniqueId = some q then e.2.data.m_dirtyRegion else ∅)
      ∪ damageFor replacementTree rest q

/-- The dirty region of the node a pointer leads to. -/
def dirtyRegionAt (l : LayerAndroid) (p : LayerRef) : Option SkRegion :=
  (deref l p).map (fun n => n.data.m_dirtyRegion)

/-! ## Paint order -/

/-- The comparator `compareLayerZ`. -/
def compareLayerZ (a b : LayerAndroid) : Bool := decide (a.zValue > b.zValue)

/-- One step of the stable sort: `x` came before every element of the sorted list, and goes
behind the elements that the comparator orders before it. -/
def stableInsert {α : Type} (comp : α → α → Bool) (x : α) : List α → List α
  | [] => [x]
  | y :: ys => if comp y x then y :: stableInsert comp x ys else x :: y :: ys

/-- The library routine `std::stable_sort(first, last, comp)`, as a stable insertion sort. -/
def stableSort {α : Type} (comp : α → α → Bool) : List α → List α
  | [] => []
  | x :: xs => stableInsert comp x (stableSort comp xs)

/-- The local vector `sublayers` of `assignGroups` and of `drawChildrenCanvas` after
`std::stable_sort(sublayers.begin(), sublayers.end(), compareLayerZ)`: the pointers to the
children, each the child index with the child it leads to. -/
def sublayers (cs : List LayerAndroid) : List (Nat × LayerAndroid) :=
  stableSort (fun a b => compareLayerZ a.2 b.2) cs.enum

end LayerAndroid

/-! ## Render groups -/

/-- Modelled from the spec: a `LayerGroup` is an ordered collection of layers that it does
not own; the members are pointers from the root of the tree. -/
structure LayerGroup where
  m_layers : List LayerRef := []
deriving DecidableEq, Repr

/-- Modelled from the spec: `LayerGroup::addLayer` appends the layer to the members. -/
def LayerGroup.addLayer (g : LayerGroup) (layer : LayerRef) : LayerGroup :=
  { g with m_layers := g.m_layers ++ [layer] }

/-- A call `assignGroups(allGroups)` on a layer still to be chosen: given the pointer to the
layer and the vector of groups, the layer and the vector afterwards. -/
abbrev AssignCall := LayerRef → List LayerGroup → LayerAndroid × List LayerGroup

namespace LayerAndroid

/-- The loop `for (i...) sublayers[i]->assignGroups(allGroups)`: the call for child
`sublayers[i]` is made on the groups left by the calls before it, and the child is
written back in its place. -/
def assignGroupsVisit (self : LayerRef) (calls : List AssignCall) :
    List (Nat × LayerAndroid) → List LayerAndroid → List LayerGroup →
      List LayerAndroid × List LayerGroup
  | [], cs, allGroups => (cs, allGroups)
  | sub :: rest, cs, allGroups =>
    match calls[sub.1]? with
    | some call =>
      let r := call (self ++ [sub.1]) allGroups
      assignGroupsVisit self calls rest (cs.set sub.1 r.1) r.2
    | none => assignGroupsVisit self calls rest cs allGroups

mutual
/-- The method `LayerAndroid::assignGroups(allGroups)`; `self` is the pointer `this`, a
pointer to a group is its index in `allGroups`. The recursion into the children is
prepared child by child (`assignGroupsEach`) and carried out in the order of the sorted
vector `sublayers`; with no child the loop makes no call, as under `count > 0`. -/
def assignGroups : LayerAndroid → LayerRef → List LayerGroup → LayerAndroid × List LayerGroup
  | node d cs, self, allGroups =>
    let needsIsolation : Bool := d.isFixed || (d.m_animations.length != 0)
    let currentLayerGroup : Option Nat := if !allGroups.isEmpty then some 0 else none
    let fresh : Bool := currentLayerGroup.isNone || needsIsolation || true
    let allGroups1 : List LayerGroup := if fresh then allGroups ++ [{ m_layers := [] }] else allGroups
    let currentLayerGroup1 : Nat := if fresh then allGroups.length else currentLayerGroup.getD 0
    let allGroups2 := allGroups1.modify (fun g => g.addLayer self) currentLayerGroup1
    let d1 : LayerData := { d with m_layerGroup := some currentLayerGroup1 }
    let r := assignGroupsVisit self (assignGroupsEach cs) (sublayers cs) cs allGroups2
    (node d1 r.1, r.2)
/-- The calls `getChild(i)->assignGroups(allGroups)`, one for every child. -/
def assignGroupsEach : List LayerAndroid → List AssignCall
  | [] => []
  | c :: cs => (fun self allGroups => assignGroups c self allGroups) :: assignGroupsEach cs
end

mutual
/-- The Z-sorted preorder traversal of a tree: the node first, then its children in the
order of the stable sort by descending Z, each with its own subtree, recursively. -/
def paintOrder : LayerAndroid → List LayerRef
  | node _ cs =>
    [] :: ((sublayers cs).map
      (fun sub => ((paintOrderEach cs).getD sub.1 []).map (fun r => sub.1 :: r))).flatten
/-- The Z-sorted preorder traversal of every child. -/
def paintOrderEach : List LayerAndroid → List (List LayerRef)
  | [] => []
  | c :: cs => paintOrder c :: paintOrderEach cs
end

/-- The groups of a subtree in paint order: one group for every node, holding the pointer
to it. -/
def groupsOf (self : LayerRef) (l : LayerAndroid) : List LayerGroup :=
  (paintOrder l).map (fun r => { m_layers := [self ++ r] })

/-- What `assignGroups` on a layer achieves, from any group vector: the groups of the
subtree are appended in paint order, and every node of the subtree points to the group
that holds it. -/
def AssignsGroups (T : LayerAndroid) : Prop :=
  ∀ (self : LayerRef) (G : List LayerGroup),
    (assignGroups T self G).2 = G ++ groupsOf self T
    ∧ ∀ r n, deref T r = some n →
        ∃ n' k, deref (assignGroups T self G).1 r = some n'
          ∧ n'.data.m_layerGroup = some k
          ∧ (assignGroups T self G).2[k]? = some { m_layers := [self ++ r] }

end LayerAndroid

/-! ## Draw dispatch -/

/-- Modelled from the spec: `TransformationMatrix::hasPerspective()`, true when the matrix
has a perspective term. -/
def TransformationMatrix.hasPerspective (m : TransformationMatrix) : Bool :=
  m.m14 != 0 || m.m24 != 0 || m.m34 != 0 || m.m44 != 1

/-- What the draw traversal does to its collaborators: the entry into `drawCanvas` for a
layer, the request `onDraw(canvas, m_drawOpacity, 0)` to produce the pixels of a layer,
and the report `addDirtyArea()` of a layer to the damage accumulator. -/
inductive DrawEvent where
  | drawCanvas (layer : LayerRef)
  | onDraw (layer : LayerRef) (opacity : SkScalar)
  | addDirtyArea (layer : LayerRef)
deriving DecidableEq, Repr

/-- A call `drawCanvas(canvas)` on a layer still to be chosen: given the pointer to the
layer, the value returned and the events. -/
abbrev DrawCall := LayerRef → Bool × List DrawEvent

namespace LayerAndroid

/-- The loop `askScreenUpdate |= layer->drawCanvas(canvas)` over the sorted vector. -/
def drawChildrenVisit (self : LayerRef) (calls : List DrawCall) :
    List (Nat × LayerAndroid) → Bool → Bool × List DrawEvent
  | [], askScreenUpdate => (askScreenUpdate, [])
  | sub :: rest, askScreenUpdate =>
    match calls[sub.1]? with
    | some call =>
      let r := call (self ++ [sub.1])
      let out := drawChildrenVisit self calls rest (askScreenUpdate || r.1)
      (out.1, r.2 ++ out.2)
    | none => drawChildrenVisit self calls rest askScreenUpdate

mutual
/-- The method `LayerAndroid::drawCanvas(canvas)`: the value returned and the events, in
order. The canvas state is not modelled; the body of `drawChildrenCanvas` is the loop
`drawChildrenVisit` over `sublayers`. -/
def drawCanvas : LayerAndroid → LayerRef → Bool × List DrawEvent
  | node d cs, self =>
    if !d.m_visible then (false, [DrawEvent.drawCanvas self])
    else
      let kids := drawChildrenVisit self (drawCanvasEach cs) (sublayers cs) false
      let askScreenUpdate : Bool := false || kids.1
      let report : List DrawEvent :=
        if askScreenUpdate || d.m_hasRunningAnimations || d.m_drawTransform.hasPerspective
        then [DrawEvent.addDirtyArea self] else []
      (askScreenUpdate,
        [DrawEvent.drawCanvas self, DrawEvent.onDraw self d.m_drawOpacity] ++ kids.2 ++ report)
/-- The calls `getChild(i)->drawCanvas(canvas)`, one for every child. -/
def drawCanvasEach : List LayerAndroid → List DrawCall
  | [] => []
  | c :: cs => (fun self => drawCanvas c self) :: drawCanvasEach cs
end

/-- The method `LayerAndroid::drawChildrenCanvas(canvas)`. -/
def drawChildrenCanvas : LayerAndroid → LayerRef → Bool × List DrawEvent
  | node _ cs, self => drawChildrenVisit self (drawCanvasEach cs) (sublayers cs) false

/-! ## Transform and positioning pass -/

end LayerAndroid

/-- The type `IntSize`. -/
structure IntSize where
  width : Int := 0
  height : Int := 0
deriving DecidableEq, Repr

/-- The conversion of a `float` to an `int`: the fraction is dropped. -/
def toInt (x : SkScalar) : Int := if 0 ≤ x then Rat.floor x else Rat.ceil x

/-- The collaborators of the transform pass that live outside the file: the operations
of `TransformationMatrix` and of `FloatRect`, the shader's `zValue`, and `round` of the
C library. A matrix operation takes the matrix it is called on first. -/
structure TransformEnv where
  translate3d : TransformationMatrix → SkScalar → SkScalar → SkScalar → TransformationMatrix
  translate : TransformationMatrix → SkScalar → SkScalar → TransformationMatrix
  multiply : TransformationMatrix → TransformationMatrix → TransformationMatrix
  isIdentityOrTranslation : TransformationMatrix → Bool
  isIdentity : TransformationMatrix → Bool
  inverse : TransformationMatrix → TransformationMatrix
  mapRect : TransformationMatrix → FloatRect → FloatRect
  intersect : FloatRect → FloatRect → FloatRect
  zValue : TransformationMatrix → SkScalar → SkScalar → SkScalar
  round : SkScalar → SkScalar

/-- The outcome of `updateGLPositionsAndScale`: the tree afterwards and the divisor of
every division the body of the method carried out, in order. -/
structure Positioned where
  layer : LayerAndroid
  divisors : List SkScalar

namespace LayerAndroid

/-- The local `layerSize` of `updateGLPositionsAndScale`:
`IntSize layerSize(getSize().width(), getSize().height())`. -/
def layerSize (d : LayerData) : IntSize :=
  { width := toInt d.m_size.fWidth, height := toInt d.m_size.fHeight }

/-- The local `localMatrix` of `updateGLPositionsAndScale` when the draw transform is set
from it: the parent matrix, or the identity for a fixed layer, then the translation to the
anchor origin, the layer's own transform and the translation back. -/
def localMatrixOf (env : TransformEnv) (d : LayerData) (parentMatrix : TransformationMatrix) :
    TransformationMatrix :=
  let layerSize := layerSize d
  let anchorPoint : SkPoint := { fX := d.m_anchorPoint.fX, fY := d.m_anchorPoint.fY }
  let position : SkPoint :=
    { fX := d.m_position.fX - d.m_offset.x, fY := d.m_position.fY - d.m_offset.y }
  let originX : SkScalar := anchorPoint.fX * layerSize.width
  let originY : SkScalar := anchorPoint.fY * layerSize.height
  let localMatrix : TransformationMatrix := if !d.isFixed then parentMatrix else {}
  let localMatrix := env.translate3d localMatrix (originX + position.fX) (originY + position.fY)
    d.m_anchorPointZ
  let localMatrix := env.multiply localMatrix d.m_transform
  env.translate3d localMatrix (-originX) (-originY) (-d.m_anchorPointZ)

/-- The draw transform set by `updateGLPositionsAndScale`: `setDrawTransform(localMatrix)`,
then, for an identity or a translation, the translation aligned to the pixels of the
scale, `round(m41 * scale) / scale` and `round(m42 * scale) / scale`. The second
component lists the divisors of the divisions made. -/
def alignedDrawTransform (env : TransformEnv) (localMatrix : TransformationMatrix)
    (scale : SkScalar) : TransformationMatrix × List SkScalar :=
  if env.isIdentityOrTranslation localMatrix then
    let desiredContentX := env.round (localMatrix.m41 * scale) / scale
    let desiredContentY := env.round (localMatrix.m42 * scale) / scale
    ({ localMatrix with m41 := desiredContentX, m42 := desiredContentY }, [scale, scale])
  else (localMatrix, [])

/-- The draw clip set by `updateGLPositionsAndScale`. -/
def drawClipOf (env : TransformEnv) (d : LayerData) (drawTransform : TransformationMatrix)
    (clipping : FloatRect) : FloatRect :=
  if d.m_haveClip then
    let rect : FloatRect :=
      { x := 0, y := 0, width := (layerSize d).width, height := (layerSize d).height }
    let clip := env.mapRect drawTransform rect
    env.intersect clip clipping
  else clipping

/-- The local `childMatrix` of `updateGLPositionsAndScale`: the local matrix, flattened to
2D unless the layer preserves 3D, moved by the content offset and, for a children
transform other than the identity, combined with it around the centre of the layer. -/
def childMatrixOf (env : TransformEnv) (d : LayerData) (localMatrix : TransformationMatrix) :
    TransformationMatrix :=
  let localMatrix : TransformationMatrix :=
    if !d.m_preserves3D then
      { localMatrix with
        m13 := 0, m23 := 0, m31 := 0, m32 := 0, m33 := 1, m34 := 0, m43 := 0 }
    else localMatrix
  let childMatrix := env.translate3d localMatrix d.m_offset.x d.m_offset.y 0
  if !env.isIdentity d.m_childrenTransform then
    let childMatrix := env.translate childMatrix (d.m_size.fWidth * (1/2)) (d.m_size.fHeight * (1/2))
    let childMatrix := env.multiply childMatrix d.m_childrenTransform
    env.translate childMatrix (-d.m_size.fWidth * (1/2)) (-d.m_size.fHeight * (1/2))
  else childMatrix

/-- The test of `updateGLPositionsAndScale` for a layer seen from the back:
`!m_backfaceVisibility && m_drawTransform.inverse().m33() < 0`. -/
def backfaceCulled (env : TransformEnv) (d : LayerData) (drawTransform : TransformationMatrix) :
    Bool :=
  !d.m_backfaceVisibility && decide ((env.inverse drawTransform).m33 < 0)

mutual
/-- The method `LayerAndroid::updateGLPositionsAndScale(parentMatrix, clipping, opacity,
scale)`. The locks are not modelled; with no child the loop makes no call, as after
`if (!count) return`. -/
def updateGLPositionsAndScale (env : TransformEnv) :
    LayerAndroid → TransformationMatrix → FloatRect → SkScalar → SkScalar → Positioned
  | node d cs, parentMatrix, clipping, opacity, scale =>
    let localMatrix := localMatrixOf env d parentMatrix
    let aligned := alignedDrawTransform env localMatrix scale
    let zValue := env.zValue aligned.1 d.m_size.fWidth d.m_size.fHeight
    let opacity := opacity * d.m_opacity
    let drawClip := drawClipOf env d aligned.1 clipping
    let d1 : LayerData :=
      { d with
        m_drawTransform := aligned.1
        m_zValue := zValue
        m_scale := scale
        m_drawOpacity := opacity
        m_clippingRect := drawClip }
    if backfaceCulled env d aligned.1 then
      { layer := node { d1 with m_visible := false } cs, divisors := aligned.2 }
    else
      let kids := updateGLPositionsAndScaleFrom env cs (childMatrixOf env d localMatrix)
        drawClip opacity scale
      { layer := node { d1 with m_visible := true } kids.1, divisors := aligned.2 ++ kids.2 }
/-- The loop of `updateGLPositionsAndScale` over the children. -/
def updateGLPositionsAndScaleFrom (env : TransformEnv) :
    List LayerAndroid → TransformationMatrix → FloatRect → SkScalar → SkScalar →
      List LayerAndroid × List SkScalar
  | [], _, _, _, _ => ([], [])
  | c :: cs, childMatrix, drawClip, opacity, scale =>
    let r := updateGLPositionsAndScale env c childMatrix drawClip opacity scale
    let rest := updateGLPositionsAndScaleFrom env cs childMatrix drawClip opacity scale
    (r.layer :: rest.1, r.divisors ++ rest.2)
end

/-- The own opacities of the nodes on the way from the root of a tree down to the node a
pointer leads to, that node included. -/
def pathOpacities : LayerAndroid → LayerRef → List SkScalar
  | node d _, [] => [d.m_opacity]
  | node d cs, i :: p =>
    match cs[i]? with
    | some c => d.m_opacity :: pathOpacities c p
    | none => [d.m_opacity]

/-- Every node strictly above the node a pointer leads to has its visible flag set. -/
def visibleAbove : LayerAndroid → LayerRef → Bool
  | _, [] => true
  | node d cs, i :: p =>
    match cs[i]? with
    | some c => d.m_visible && visibleAbove c p
    | none => false

/-! ## Fixed layers and embedded frames -/

/-- The method `LayerAndroid::updateFixedLayerPosition(viewport, parentIframeLayer)`: the
layer afterwards and the pointer returned. The iframe layer is handed over by value;
the pass does not change the position read from it. -/
def updateFixedLayerPosition (d : LayerData) (_viewport : FloatRect)
    (parentIframeLayer : Option LayerData) : LayerData × Option LayerData :=
  let iframe := parentIframeLayer
  if d.m_isIframe then
    let parentOffset : SkPoint :=
      match iframe with
      | some l => l.m_position
      | none => { fX := 0, fY := 0 }
    let offset : SkPoint :=
      { fX := parentOffset.fX + d.m_position.fX, fY := parentOffset.fY + d.m_position.fY }
    let d1 : LayerData := { d with m_iframeOffset := { x := toInt offset.fX, y := toInt offset.fY } }
    (d1, some d1)
  else (d, iframe)

mutual
/-- The method `LayerAndroid::updateFixedLayersPositions(viewport, parentIframeLayer)`. -/
def updateFixedLayersPositions : LayerAndroid → FloatRect → Option LayerData → LayerAndroid
  | node d cs, viewport, parentIframeLayer =>
    let r := updateFixedLayerPosition d viewport parentIframeLayer
    node r.1 (updateFixedLayersPositionsFrom cs viewport r.2)
/-- The loop of `updateFixedLayersPositions` over the children. -/
def updateFixedLayersPositionsFrom : List LayerAndroid → FloatRect → Option LayerData →
    List LayerAndroid
  | [], _, _ => []
  | c :: cs, viewport, iframeLayer =>
    updateFixedLayersPositions c viewport iframeLayer
      :: updateFixedLayersPositionsFrom cs viewport iframeLayer
end

/-! ## Textures for painting -/

end LayerAndroid

/-- A call `LayerGroup::initializeGroup(layer, dirtyRegion, drawingLayer)` on a group: the
group, the layer, the dirty region handed over and the layer of the drawing tree (a
pointer into that tree), if any. -/
structure InitializeGroupCall where
  group : Nat
  layer : LayerRef
  dirtyRegion : SkRegion
  drawingLayer : Option LayerRef
deriving DecidableEq

namespace LayerAndroid

/-- The method `LayerAndroid::needsTexture`. -/
def needsTexture (d : LayerData) : Bool :=
  match d.m_recordingPicture with
  | some picture => picture.width != 0 && picture.height != 0
  | none => false

/-- The method `LayerAndroid::obtainTextureForPainting(drawingLayer)`: the layer afterwards
and the calls made on the group. The result is `none` when the method dereferences the
null group pointer. -/
def obtainTextureForPainting (d : LayerData) (self : LayerRef) (drawingLayer : Option LayerRef) :
    Option (LayerData × List InitializeGroupCall) :=
  if !needsTexture d then some (d, [])
  else
    match d.m_layerGroup with
    | none => none
    | some group =>
      some ({ d with m_dirtyRegion := ∅ },
        [{ group := group, layer := self, dirtyRegion := d.m_dirtyRegion,
           drawingLayer := drawingLayer }])

mutual
/-- The method `LayerAndroid::setIsPainting(drawingTree)`; `self` is the pointer `this`. -/
def setIsPainting : LayerAndroid → LayerRef → Option LayerAndroid →
    Option (LayerAndroid × List InitializeGroupCall)
  | node d cs, self, drawingTree =>
    match setIsPaintingFrom cs self 0 drawingTree with
    | none => none
    | some kids =>
      let drawingLayer : Option LayerRef :=
        match drawingTree with
        | some tree => findById tree d.m_uniqueId
        | none => none
      match obtainTextureForPainting d self drawingLayer with
      | none => none
      | some own => some (node own.1 kids.1, kids.2 ++ own.2)
/-- The loop of `setIsPainting` over the children, from child `i` on. -/
def setIsPaintingFrom : List LayerAndroid → LayerRef → Nat → Option LayerAndroid →
    Option (List LayerAndroid × List InitializeGroupCall)
  | [], _, _, _ => some ([], [])
  | c :: cs, self, i, drawingTree =>
    match setIsPainting c (self ++ [i]) drawingTree with
    | none => none
    | some r =>
      match setIsPaintingFrom cs self (i + 1) drawingTree with
      | none => none
      | some rest => some (r.1 :: rest.1, r.2 ++ rest.2)
end

/-! ## The calls of a painting pass -/

mutual
/-- The nodes of a tree in depth-first postorder (the children in index order, then the
node), each with the pointer to it. -/
def postorder : LayerAndroid → List (LayerRef × LayerAndroid)
  | node d cs => postorderFrom cs 0 ++ [([], node d cs)]
/-- The postorder of the children from child `i` on. -/
def postorderFrom : List LayerAndroid → Nat → List (LayerRef × LayerAndroid)
  | [], _ => []
  | c :: cs, i => (postorder c).map (fun e => (i :: e.1, e.2)) ++ postorderFrom cs (i + 1)
end

/-- The call on the group that a painting pass started at `self` owes to a node: none for
a node that needs no texture (or has no group), and otherwise the call with the node,
its dirty region and the node of its id in the drawing tree. -/
def paintingCall (self : LayerRef) (drawingTree : Option LayerAndroid)
    (e : LayerRef × LayerAndroid) : Option InitializeGroupCall :=
  if needsTexture e.2.data then
    e.2.data.m_layerGroup.map (fun group =>
      { group := group, layer := self ++ e.1, dirtyRegion := e.2.data.m_dirtyRegion,
        drawingLayer := drawingTree.bind (fun tree => findById tree e.2.uniqueId) })
  else none

/-- The members of a node after a painting pass: the dirty region is empty when the node
needs a texture. -/
def paintedData (d : LayerData) : LayerData :=
  if needsTexture d then { d with m_dirtyRegion := ∅ } else d

mutual
/-- The tree after a painting pass: the nodes that need a texture have an empty dirty
region, everything else is as before. -/
def painted : LayerAndroid → LayerAndroid
  | node d cs => node (paintedData d) (paintedFrom cs)
/-- The children after a painting pass. -/
def paintedFrom : List LayerAndroid → List LayerAndroid
  | [] => []
  | c :: cs => painted c :: paintedFrom cs
end

/-! ## Incremental update -/

/-- The method `LayerAndroid::updateWithTree(newTree)`: the fast update is compiled out
(`#if (0)`), what is left is `return true`. The result is the value returned, the tree
the method is called on and the new tree (`none` is the null pointer) afterwards. -/
def updateWithTree (layer : LayerAndroid) (newTree : Option LayerAndroid) :
    Bool × LayerAndroid × Option LayerAndroid :=
  (true, layer, newTree)

/-! ## Visibility -/

/-- The loop of `LayerAndroid::visible()`. The pointer `current` is written from the node
upwards, the last child index first: the parent is the rest of the list and the root of
the tree has no parent. The result is `none` for a pointer that leads nowhere. -/
def visibleFrom (root : LayerAndroid) : List Nat → Option Bool
  | [] => some true
  | i :: up =>
    match deref root (i :: up).reverse with
    | some current =>
      if !current.data.m_visible then some false
      else visibleFrom root up
    | none => none

/-- The method `LayerAndroid::visible()`, called on the node `self` of the tree `root`. -/
def visible (root : LayerAndroid) (self : LayerRef) : Option Bool :=
  match deref root self with
  | some _ => visibleFrom root self.reverse
  | none => none

/-- The visible flags of the nodes on the way from the root of a tree down to the node a
pointer leads to, the root excluded and that node included. -/
def visibleFlagsBelowRoot : LayerAndroid → LayerRef → List Bool
  | _, [] => []
  | node _ cs, i :: p =>
    match cs[i]? with
    | some c => c.data.m_visible :: visibleFlagsBelowRoot c p
    | none => []

/-! ## The life of an animation set -/

end LayerAndroid

/-- An operation on the animation set of a node. -/
inductive AnimationOp where
  | addAnimation (anim : AndroidAnimation)
  | removeAnimationsForProperty (property : Int)
  | removeAnimationsForKeyframes (name : String)

namespace LayerAndroid

/-- The node after one operation on its animation set. -/
def applyOp (l : LayerAndroid) : AnimationOp → LayerAndroid
  | AnimationOp.addAnimation anim => addAnimation l anim
  | AnimationOp.removeAnimationsForProperty property => removeAnimationsForProperty l property
  | AnimationOp.removeAnimationsForKeyframes name => removeAnimationsForKeyframes l name

/-- The node after a sequence of operations on its animation set. -/
def applyOps (l : LayerAndroid) (ops : List AnimationOp) : LayerAndroid :=
  ops.foldl applyOp l

/-- The animation set holds at most one animation of every property kind. -/
def OnePerKind (m : KeyframesMap) : Prop :=
  (m.map (fun e => e.2.type)).Nodup

/-! ## Example inputs -/

/-- An example node: a fade animation of kind 1 and one of kind 2 under the same name. -/
def exampleAnimatedLayer : LayerAndroid :=
  node { m_uniqueId := 1,
         m_animations := [(("fade", 1), { name := "fade", type := 1, animId := 10 }),
                          (("fade", 2), { name := "fade", type := 2, animId := 11 })] } []

/-- An example animation of kind 1 under another name. -/
def exampleSpin : AndroidAnimation := { name := "spin", type := 1, animId := 12 }

/-- Five children with the Z values 5, 3, 5, 1, 5 and the ids 0 to 4. -/
def exampleChildren : List LayerAndroid :=
  [node { m_uniqueId := 0, m_zValue := 5 } [], node { m_uniqueId := 1, m_zValue := 3 } [],
   node { m_uniqueId := 2, m_zValue := 5 } [], node { m_uniqueId := 3, m_zValue := 1 } [],
   node { m_uniqueId := 4, m_zValue := 5 } []]

end LayerAndroid

/-! ### An example environment

The usual operations on 4x4 matrices (row vectors, the translation in the fourth row) and
on rectangles, used to run the transform pass on concrete trees. -/

namespace Example

/-- The entry of a matrix in row `i` and column `j`, counted from 0. -/
def entry (m : TransformationMatrix) (i j : Nat) : SkScalar :=
  match i, j with
  | 0, 0 => m.m11 | 0, 1 => m.m12 | 0, 2 => m.m13 | 0, 3 => m.m14
  | 1, 0 => m.m21 | 1, 1 => m.m22 | 1, 2 => m.m23 | 1, 3 => m.m24
  | 2, 0 => m.m31 | 2, 1 => m.m32 | 2, 2 => m.m33 | 2, 3 => m.m34
  | 3, 0 => m.m41 | 3, 1 => m.m42 | 3, 2 => m.m43 | 3, 3 => m.m44
  | _, _ => 0

/-- The matrix with the given entries. -/
def ofEntries (f : Nat → Nat → SkScalar) : TransformationMatrix :=
  { m11 := f 0 0, m12 := f 0 1, m13 := f 0 2, m14 := f 0 3
    m21 := f 1 0, m22 := f 1 1, m23 := f 1 2, m24 := f 1 3
    m31 := f 2 0, m32 := f 2 1, m33 := f 2 2, m34 := f 2 3
    m41 := f 3 0, m42 := f 3 1, m43 := f 3 2, m44 := f 3 3 }

/-- The operation `translate3d(tx, ty, tz)`. -/
def translate3d (m : TransformationMatrix) (tx ty tz : SkScalar) : TransformationMatrix :=
  { m with
    m41 := m.m41 + (tx * m.m11 + ty * m.m21 + tz * m.m31)
    m42 := m.m42 + (tx * m.m12 + ty * m.m22 + tz * m.m32)
    m43 := m.m43 + (tx * m.m13 + ty * m.m23 + tz * m.m33)
    m44 := m.m44 + (tx * m.m14 + ty * m.m24 + tz * m.m34) }

/-- The operation `translate(tx, ty)`. -/
def translate (m : TransformationMatrix) (tx ty : SkScalar) : TransformationMatrix :=
  translate3d m tx ty 0

/-- The operation `multiply(mat)`: the matrix becomes `mat` times the matrix. -/
def multiply (m mat : TransformationMatrix) : TransformationMatrix :=
  ofEntries (fun i j =>
    entry mat i 0 * entry m 0 j + entry mat i 1 * entry m 1 j
      + entry mat i 2 * entry m 2 j + entry mat i 3 * entry m 3 j)

/-- The test `isIdentityOrTranslation()`. -/
def isIdentityOrTranslation (m : TransformationMatrix) : Bool :=
  m.m11 == 1 && m.m12 == 0 && m.m13 == 0 && m.m14 == 0
    && m.m21 == 0 && m.m22 == 1 && m.m23 == 0 && m.m24 == 0
    && m.m31 == 0 && m.m32 == 0 && m.m33 == 1 && m.m34 == 0 && m.m44 == 1

/-- The test `isIdentity()`. -/
def isIdentity (m : TransformationMatrix) : Bool :=
  isIdentityOrTranslation m && m.m41 == 0 && m.m42 == 0 && m.m43 == 0

/-- The determinant of a 3x3 matrix given by rows. -/
def determinant3x3 (a b c d e f g h i : SkScalar) : SkScalar :=
  a * (e * i - f * h) - b * (d * i - f * g) + c * (d * h - e * g)

/-- The three indices below 4 other than `i`. -/
def others (i : Nat) : List Nat := (List.range 4).filter (fun k => k != i)

/-- The determinant of the matrix without row `i` and column `j`. -/
def minor (m : TransformationMatrix) (i j : Nat) : SkScalar :=
  match others i, others j with
  | [r0, r1, r2], [c0, c1, c2] =>
    determinant3x3 (entry m r0 c0) (entry m r0 c1) (entry m r0 c2)
      (entry m r1 c0) (entry m r1 c1) (entry m r1 c2)
      (entry m r2 c0) (entry m r2 c1) (entry m r2 c2)
  | _, _ => 0

/-- The cofactor of the entry in row `i` and column `j`. -/
def cofactor (m : TransformationMatrix) (i j : Nat) : SkScalar :=
  (if (i + j) % 2 = 0 then 1 else -1) * minor m i j

/-- The determinant of a matrix. -/
def determinant (m : TransformationMatrix) : SkScalar :=
  entry m 0 0 * cofactor m 0 0 + entry m 0 1 * cofactor m 0 1
    + entry m 0 2 * cofactor m 0 2 + entry m 0 3 * cofactor m 0 3

/-- The operation `inverse()`: the identity for a matrix that cannot be inverted. -/
def inverse (m : TransformationMatrix) : TransformationMatrix :=
  if determinant m = 0 then {}
  else ofEntries (fun i j => cofactor m j i / determinant m)

/-- The image of a point of the plane, divided by the weight unless that is 0 or 1. -/
def mapPoint (m : TransformationMatrix) (x y : SkScalar) : SkScalar × SkScalar :=
  let resultX := m.m41 + x * m.m11 + y * m.m21
  let resultY := m.m42 + x * m.m12 + y * m.m22
  let w := m.m44 + x * m.m14 + y * m.m24
  if w != 1 && w != 0 then (resultX / w, resultY / w) else (resultX, resultY)

/-- The operation `mapRect(rect)`: the bounding box of the images of the four corners. -/
def mapRect (m : TransformationMatrix) (r : FloatRect) : FloatRect :=
  let p1 := mapPoint m r.x r.y
  let p2 := mapPoint m (r.x + r.width) r.y
  let p3 := mapPoint m (r.x + r.width) (r.y + r.height)
  let p4 := mapPoint m r.x (r.y + r.height)
  let left := min (min p1.1 p2.1) (min p3.1 p4.1)
  let top := min (min p1.2 p2.2) (min p3.2 p4.2)
  let right := max (max p1.1 p2.1) (max p3.1 p4.1)
  let bottom := max (max p1.2 p2.2) (max p3.2 p4.2)
  { x := left, y := top, width := right - left, height := bottom - top }

/-- The operation `FloatRect::intersect(other)`: the empty rectangle at the origin when
the two do not meet. -/
def intersect (a other : FloatRect) : FloatRect :=
  let l := max a.x other.x
  let t := max a.y other.y
  let r := min (a.x + a.width) (other.x + other.width)
  let b := min (a.y + a.height) (other.y + other.height)
  if l ≥ r ∨ t ≥ b then { x := 0, y := 0, width := 0, height := 0 }
  else { x := l, y := t, width := r - l, height := b - t }

/-- The function `round` of the C library: to the nearest integer, halves away from 0. -/
def round (x : SkScalar) : SkScalar :=
  if 0 ≤ x then Rat.floor (x + 1/2) else Rat.ceil (x - 1/2)

/-- The example environment; the shader's z value is taken to be the z translation of the
draw transform. -/
def env : TransformEnv :=
  { translate3d := translate3d
    translate := translate
    multiply := multiply
    isIdentityOrTranslation := isIdentityOrTranslation
    isIdentity := isIdentity
    inverse := inverse
    mapRect := mapRect
    intersect := intersect
    zValue := fun m _ _ => m.m43
    round := round }

/-- The translation by (100, 100). -/
def translation100 : TransformationMatrix := { m41 := 100, m42 := 100 }

/-- The rotation by 180 degrees about the Y axis. -/
def rotateY180 : TransformationMatrix := { m11 := -1, m33 := -1 }

/-- A clip rectangle of 1000 by 1000 at the origin. -/
def clip1000 : FloatRect := { x := 0, y := 0, width := 1000, height := 1000 }

/-- A fixed layer of 40 by 20 at (10, 20) with opacity 1/2. -/
def fixedLayer : LayerAndroid :=
  LayerAndroid.node
    { m_uniqueId := 2, isFixed := true, m_opacity := 1/2
      m_position := { fX := 10, fY := 20 }, m_size := { fWidth := 40, fHeight := 20 } } []

/-- A layer of size zero. -/
def emptyLayer : LayerAndroid := LayerAndroid.node { m_uniqueId := 3 } []

/-- A layer of 1/2 by 1/2 with a clip of its own. -/
def halfLayer : LayerAndroid :=
  LayerAndroid.node
    { m_uniqueId := 4, m_haveClip := true, m_size := { fWidth := 1/2, fHeight := 1/2 } } []

/-- A layer of opacity 1/2 with a child of opacity 1/2 that has a child of opacity 1/5. -/
def opacityTree : LayerAndroid :=
  LayerAndroid.node { m_uniqueId := 1, m_opacity := 1/2 }
    [LayerAndroid.node { m_uniqueId := 2, m_opacity := 1/2 }
      [LayerAndroid.node { m_uniqueId := 3, m_opacity := 1/5 } []]]

/-- A layer turned by 180 degrees about the Y axis whose back face is not visible, with a
child. -/
def backfaceTree : LayerAndroid :=
  LayerAndroid.node
    { m_uniqueId := 1, m_backfaceVisibility := false, m_transform := rotateY180
      m_anchorPoint := { fX := 0, fY := 0 } }
    [LayerAndroid.node { m_uniqueId := 2, m_visible := true, m_drawOpacity := 7 } []]

/-- Three nested iframe roots at the positions (10, 0), (20, 0) and (30, 0). -/
def nestedIframes : LayerAndroid :=
  LayerAndroid.node { m_uniqueId := 1, m_isIframe := true, m_position := { fX := 10, fY := 0 } }
    [LayerAndroid.node { m_uniqueId := 2, m_isIframe := true, m_position := { fX := 20, fY := 0 } }
      [LayerAndroid.node
        { m_uniqueId := 3, m_isIframe := true, m_position := { fX := 30, fY := 0 } } []]]

/-- A visible layer without running animation and without perspective whose visible child
has a running animation. -/
def animatedChildTree : LayerAndroid :=
  LayerAndroid.node { m_uniqueId := 1, m_visible := true, m_hasRunningAnimations := false }
    [LayerAndroid.node { m_uniqueId := 2, m_visible := true, m_hasRunningAnimations := true } []]

/-- An invisible layer with a visible child that has a running animation. -/
def hiddenTree : LayerAndroid :=
  LayerAndroid.node { m_uniqueId := 1, m_visible := false, m_hasRunningAnimations := true }
    [LayerAndroid.node { m_uniqueId := 2, m_visible := true, m_hasRunningAnimations := true } []]

/-- A layer with recorded content of 10 by 10 and a dirty region, but without a group. -/
def ungroupedContent : LayerData :=
  { m_uniqueId := 1, m_recordingPicture := some { pictureId := 1, width := 10, height := 10 }
    m_dirtyRegion := {(0, 0)}, m_layerGroup := none }

/-- A layer without recorded content, with a dirty region and without a group. -/
def noContent : LayerData :=
  { m_uniqueId := 1, m_recordingPicture := none, m_dirtyRegion := {(0, 0)}, m_layerGroup := none }

/-- A layer whose derived state was computed: a draw transform, the scale 2, invisible, and
a group. -/
def computedLayer : LayerAndroid :=
  LayerAndroid.node
    { m_uniqueId := 1, m_drawTransform := translation100, m_scale := 2, m_visible := false
      m_layerGroup := some 0 } []

/-- A tree in which every node has a group: the root and its second child have recorded
content, the first child has none. -/
def paintingTree : LayerAndroid :=
  LayerAndroid.node
    { m_uniqueId := 1, m_layerGroup := some 0, m_dirtyRegion := {(0, 0)}
      m_recordingPicture := some { pictureId := 1, width := 10, height := 10 } }
    [LayerAndroid.node { m_uniqueId := 2, m_layerGroup := some 1, m_dirtyRegion := {(1, 1)} } [],
     LayerAndroid.node
      { m_uniqueId := 3, m_layerGroup := some 2, m_dirtyRegion := {(2, 2)}
        m_recordingPicture := some { pictureId := 2, width := 5, height := 5 } } []]

/-- A drawing tree that holds the id 3 in its first child. -/
def drawingTree : LayerAndroid :=
  LayerAndroid.node { m_uniqueId := 7 } [LayerAndroid.node { m_uniqueId := 3 } []]

/-- An invisible root with a visible child that has a visible child and an invisible one. -/
def invisibleRootTree : LayerAndroid :=
  LayerAndroid.node { m_uniqueId := 1, m_visible := false }
    [LayerAndroid.node { m_uniqueId := 2, m_visible := true }
      [LayerAndroid.node { m_uniqueId := 3, m_visible := true } [],
       LayerAndroid.node { m_uniqueId := 4, m_visible := false } []]]

end Example

end WebCore


namespace WebCore
namespace LayerAndroid

/-! ## findById -/

mutual
theorem findById_eq_find : ∀ (T : LayerAndroid) (id : Int),
    findById T id = ((preorder T).find? (fun e => e.2.uniqueId == id)).map Prod.fst
  | node d cs, id => by
    unfold findById preorder
    by_cases h : d.m_uniqueId = id
    · simp [h, uniqueId, data]
    · simp [h, uniqueId, data, List.find?_cons]
      have := findByIdFrom_eq_find cs 0 id
      simpa [uniqueId, data] using this
theorem findByIdFrom_eq_find : ∀ (cs : List LayerAndroid) (i : Nat) (id : Int),
    findByIdFrom cs i id = ((preorderFrom cs i).find? (fun e => e.2.uniqueId == id)).map Prod.fst
  | [], i, id => by simp [findByIdFrom, preorderFrom]
  | c :: cs, i, id => by
    unfold findByIdFrom preorderFrom
    rw [findById_eq_find c id, findByIdFrom_eq_find cs (i + 1) id]
    rw [List.find?_append, List.find?_map]
    cases h : (preorder c).find? (fun e => e.2.uniqueId == id) with
    | none =>
      have : List.find? ((fun e => e.2.uniqueId == id) ∘ fun e => (i :: e.1, e.2)) (preorder c) = none := by
        simpa [Function.comp_def] using h
      simp [this]
    | some r =>
      have : List.find? ((fun e => e.2.uniqueId == id) ∘ fun e => (i :: e.1, e.2)) (preorder c) = some r := by
        simpa [Function.comp_def] using h
      simp [this]
end

mutual
theorem deref_of_mem_preorder : ∀ (T : LayerAndroid) (p : LayerRef) (n : LayerAndroid),
    (p, n) ∈ preorder T → deref T p = some n
  | node d cs, p, n, h => by
    unfold preorder at h
    rcases List.mem_cons.1 h with h | h
    · cases h; simp [deref]
    · obtain ⟨i, q, hp, hq⟩ := deref_of_mem_preorderFrom cs 0 p n h
      subst hp
      simp only [Nat.zero_add, deref]
      cases hc : cs[i]? with
      | none => simp [hc] at hq
      | some c => simpa [hc] using hq
theorem deref_of_mem_preorderFrom : ∀ (cs : List LayerAndroid) (i : Nat) (p : LayerRef)
    (n : LayerAndroid), (p, n) ∈ preorderFrom cs i →
    ∃ j q, p = (i + j) :: q ∧ cs[j]?.bind (fun c => deref c q) = some n
  | [], i, p, n, h => by simp [preorderFrom] at h
  | c :: cs, i, p, n, h => by
    unfold preorderFrom at h
    rcases List.mem_append.1 h with h | h
    · obtain ⟨e, he, heq⟩ := List.mem_map.1 h
      cases e with
      | mk q n' =>
        simp at heq
        obtain ⟨h1, h2⟩ := heq
        subst h1 h2
        exact ⟨0, q, by simp, by simpa using deref_of_mem_preorder c q n' he⟩
    · obtain ⟨j, q, hp, hq⟩ := deref_of_mem_preorderFrom cs (i + 1) p n h
      exact ⟨j + 1, q, by rw [hp]; congr 1; omega, by simpa using hq⟩
end

/-- C1: `findById` returns the pointer to the first node, in depth-first preorder, whose
unique id equals the query; it returns the null result exactly when no node of the tree
has that id; and a returned pointer leads to a node of the tree whose id is the query. -/
theorem findById_first_match (T : LayerAndroid) (id : Int) :
    findById T id = ((preorder T).find? (fun e => e.2.uniqueId == id)).map Prod.fst
    ∧ (findById T id = none ↔ ∀ e ∈ preorder T, e.2.uniqueId ≠ id)
    ∧ (∀ p, findById T id = some p →
        ∃ n, (p, n) ∈ preorder T ∧ deref T p = some n ∧ n.uniqueId = id) := by
  refine ⟨findById_eq_find T id, ?_, ?_⟩
  · rw [findById_eq_find, Option.map_eq_none', List.find?_eq_none]
    simp
  · intro p hp
    rw [findById_eq_find] at hp
    cases hf : (preorder T).find? (fun e => e.2.uniqueId == id) with
    | none => simp [hf] at hp
    | some e =>
      simp [hf] at hp
      subst hp
      have hmem := List.mem_of_find?_eq_some hf
      have hid := List.find?_some hf
      exact ⟨e.2, hmem, deref_of_mem_preorder T e.1 e.2 hmem, by simpa using hid⟩

/-! ## Deep copy -/

theorem keys_add (m : KeyframesMap) (k : AnimKey) (a : AndroidAnimation) (x : AnimKey) :
    x ∈ (m.add k a).map Prod.fst ↔ x ∈ m.map Prod.fst ∨ x = k := by
  unfold KeyframesMap.add
  split
  · rename_i h
    constructor
    · intro hx; exact Or.inl hx
    · rintro (hx | hx)
      · exact hx
      · subst hx
        simp only [List.any_eq_true, beq_iff_eq] at h
        obtain ⟨e, he, hk⟩ := h
        exact List.mem_map.2 ⟨e, he, hk⟩
  · simp

theorem keys_copyAnimations (l : List (AnimKey × AndroidAnimation)) (m : KeyframesMap)
    (x : AnimKey) :
    x ∈ (copyAnimations l m).map Prod.fst ↔ x ∈ m.map Prod.fst ∨ x ∈ l.map Prod.fst := by
  induction l generalizing m with
  | nil => simp [copyAnimations]
  | cons it rest ih =>
    simp only [copyAnimations]
    rw [ih, keys_add]
    simp only [List.map_cons, List.mem_cons]
    tauto

theorem copyChildren_length (raw : LayerData) (cs : List LayerAndroid) :
    (copyChildren raw cs).length = cs.length := by
  induction cs with
  | nil => simp [copyChildren]
  | cons c cs ih => simp [copyChildren, ih]

theorem copyChildren_getElem? (raw : LayerData) (cs : List LayerAndroid) (i : Nat) :
    (copyChildren raw cs)[i]? = cs[i]?.map (fun c => copyConstruct raw c SubclassType.CopyLayer) := by
  induction cs generalizing i with
  | nil => simp [copyChildren]
  | cons c cs ih =>
    cases i with
    | zero => simp [copyChildren]
    | succ i => simp [copyChildren, ih]

theorem copyView_copyConstruct (raw : LayerData) (T : LayerAndroid) (st : SubclassType) :
    copyView (copyConstruct raw T st) = copyView T := by
  cases T with
  | node d cs =>
    unfold copyConstruct
    simp only [copyView, uniqueId, countChildren, children, data, geometryInputs, animationKeys,
      copyData, copyLayerBase, copyChildren_length, Prod.mk.injEq, true_and]
    ext x
    simp only [List.mem_toFinset]
    rw [keys_copyAnimations]
    simp

theorem deref_copyConstruct : ∀ (p : LayerRef) (raw : LayerData) (T : LayerAndroid)
    (st : SubclassType),
    (deref (copyConstruct raw T st) p).map copyView = (deref T p).map copyView
  | [], raw, T, st => by
    have h := copyView_copyConstruct raw T st
    cases T with
    | node d cs =>
      unfold copyConstruct at h ⊢
      simp only [deref, Option.map_some', h]
  | i :: p, raw, node d cs, st => by
    unfold copyConstruct
    simp only [deref, copyChildren_getElem?]
    cases h : cs[i]? with
    | none => simp
    | some c => simpa using deref_copyConstruct p raw c SubclassType.CopyLayer

/-- C2: deep copy is structure-preserving. The copy has a node exactly where the source
has one (same shape, children in the same order), and at every such place the two nodes
have the same unique id, the same number of children, the same geometry inputs and the
same set of animation keys. -/
theorem copy_structure_preserving (raw : LayerData) (T : LayerAndroid)
    (subclassType : SubclassType) (p : LayerRef) :
    (deref (copyConstruct raw T subclassType) p).map copyView = (deref T p).map copyView :=
  deref_copyConstruct p raw T subclassType

/-! ## The animation set -/

theorem foldl_remove_eq_filter (toDelete : List AnimKey) (m : KeyframesMap) :
    toDelete.foldl KeyframesMap.remove m = m.filter (fun e => decide (e.1 ∉ toDelete)) := by
  induction toDelete generalizing m with
  | nil => simp
  | cons k ks ih =>
    simp only [List.foldl_cons, ih, KeyframesMap.remove, List.filter_filter]
    congr 1
    funext e
    by_cases h1 : e.1 = k <;> by_cases h2 : e.1 ∈ ks <;> simp [h1, h2]

theorem keyed_filter (m : KeyframesMap) (f : AnimKey × AndroidAnimation → Bool)
    (h : Keyed m) : Keyed (m.filter f) :=
  fun e he => h e (List.mem_of_mem_filter he)

/-- On a keyed set, removing the collected keys of the animations of a property removes
exactly the entries whose animation has that property. -/
theorem removeAnimationsForProperty_keyed (d : LayerData) (cs : List LayerAndroid)
    (property : Int) (h : Keyed d.m_animations) :
    (removeAnimationsForProperty (node d cs) property).data.m_animations
      = d.m_animations.filter (fun e => e.2.type != property) := by
  simp only [removeAnimationsForProperty, data, foldl_remove_eq_filter]
  apply List.filter_congr
  intro e he
  have hk := h e he
  by_cases ht : e.2.type = property
  · have : e.1 ∈ (d.m_animations.filter (fun it => it.2.type == property)).map Prod.fst :=
      List.mem_map.2 ⟨e, List.mem_filter.2 ⟨he, by simpa using ht⟩, rfl⟩
    simp [this, ht]
  · have : e.1 ∉ (d.m_animations.filter (fun it => it.2.type == property)).map Prod.fst := by
      intro hm
      obtain ⟨e', he', hkey⟩ := List.mem_map.1 hm
      obtain ⟨hm', ht'⟩ := List.mem_filter.1 he'
      have hk' := h e' hm'
      apply ht
      have : e.1.2 = e'.1.2 := by rw [hkey]
      rw [hk, hk'] at this
      simp at ht'
      simpa [ht'] using this
    simp [this, ht]

/-- On a keyed set, `addAnimation` drops the entries of the kind of the new animation and
appends the new animation under its own key. -/
theorem addAnimation_keyed (l : LayerAndroid) (a : AndroidAnimation)
    (h : Keyed l.data.m_animations) :
    (addAnimation l a).data.m_animations
      = l.data.m_animations.filter (fun e => e.2.type != a.type) ++ [((a.name, a.type), a)] := by
  cases l with
  | node d cs =>
    have hr := removeAnimationsForProperty_keyed d cs a.type h
    unfold addAnimation
    simp only []
    generalize hl : removeAnimationsForProperty (node d cs) a.type = r at hr
    cases r with
    | node d' cs' =>
      simp only [data] at hr ⊢
      rw [hr]
      unfold KeyframesMap.add
      have hno : (List.filter (fun e => e.2.type != a.type) d.m_animations).any
          (fun e => e.1 == (a.name, a.type)) = false := by
        rw [List.any_eq_false]
        intro e he
        obtain ⟨hm, ht⟩ := List.mem_filter.1 he
        have hk := h e hm
        simp only [beq_iff_eq]
        intro hkey
        rw [hk] at hkey
        simp only [Prod.mk.injEq] at hkey
        simp [hkey.2] at ht
      simp [hno]

theorem exampleAnimatedLayer_keyed : Keyed exampleAnimatedLayer.data.m_animations := by
  intro e he
  simp [exampleAnimatedLayer, data] at he
  rcases he with he | he <;> subst he <;> rfl

/-- C3: after `addAnimation(a)` on a node whose animation set is keyed, the set holds
exactly one animation of the kind of `a`; that animation is `a`, stored under the key
(a.name, a.type), whatever was attached before (the same key, or the same kind under
another name); and the set is still keyed. -/
theorem addAnimation_one_per_kind (l : LayerAndroid) (a : AndroidAnimation)
    (h : Keyed l.data.m_animations) :
    (addAnimation l a).data.m_animations.filter (fun e => e.2.type == a.type)
        = [((a.name, a.type), a)]
    ∧ Keyed (addAnimation l a).data.m_animations := by
  rw [addAnimation_keyed l a h]
  constructor
  · rw [List.filter_append, List.filter_filter]
    have : List.filter (fun e => (e.2.type == a.type && e.2.type != a.type))
        l.data.m_animations = [] := by
      rw [List.filter_eq_nil_iff]
      intro e _
      by_cases ht : e.2.type = a.type <;> simp [ht]
    simp [this]
  · intro e he
    rcases List.mem_append.1 he with he | he
    · exact h e (List.mem_of_mem_filter he)
    · simp at he
      subst he
      rfl

theorem addAnimation_one_per_kind_witness :
    Keyed exampleAnimatedLayer.data.m_animations
    ∧ (addAnimation exampleAnimatedLayer exampleSpin).data.m_animations.filter
        (fun e => e.2.type == exampleSpin.type) = [((exampleSpin.name, exampleSpin.type), exampleSpin)] :=
  ⟨exampleAnimatedLayer_keyed,
   (addAnimation_one_per_kind exampleAnimatedLayer exampleSpin exampleAnimatedLayer_keyed).1⟩

/-- C4: `addAnimation(a)` on a node whose animation set is keyed leaves the attached
animations of every other kind as they are, in place and under their keys, those with
the name of `a` included. -/
theorem addAnimation_keeps_other_kinds (l : LayerAndroid) (a : AndroidAnimation)
    (h : Keyed l.data.m_animations) :
    (addAnimation l a).data.m_animations.filter (fun e => e.2.type != a.type)
        = l.data.m_animations.filter (fun e => e.2.type != a.type)
    ∧ ∀ e ∈ l.data.m_animations, e.2.type ≠ a.type →
        e ∈ (addAnimation l a).data.m_animations := by
  rw [addAnimation_keyed l a h]
  constructor
  · rw [List.filter_append, List.filter_filter]
    simp
  · intro e he ht
    exact List.mem_append_left _ (List.mem_filter.2 ⟨he, by simpa using ht⟩)

theorem addAnimation_keeps_other_kinds_witness :
    Keyed exampleAnimatedLayer.data.m_animations
    ∧ (("fade", 2), { name := "fade", type := 2, animId := 11 })
        ∈ (addAnimation exampleAnimatedLayer { name := "fade", type := 1, animId := 13 }).data.m_animations :=
  ⟨exampleAnimatedLayer_keyed,
   (addAnimation_keeps_other_kinds exampleAnimatedLayer { name := "fade", type := 1, animId := 13 }
      exampleAnimatedLayer_keyed).2 _ (by simp [exampleAnimatedLayer, data]) (by decide)⟩

/-! ## Animation evaluation -/

theorem evaluateLocalAnimations_spec {σ : Type} (env : AnimationEnv σ) (time : SkScalar) :
    ∀ (l : List (AnimKey × AndroidAnimation)) (d : LayerData) (w : σ),
      (evaluateLocalAnimations env time l d w).2.2.map EvaluateCall.subject
          = l.map (fun it => ([], it.2, time))
      ∧ (evaluateLocalAnimations env time l d w).1.m_hasRunningAnimations
          = (d.m_hasRunningAnimations
              || (evaluateLocalAnimations env time l d w).2.2.any (fun c => c.running))
  | [], d, w => by simp [evaluateLocalAnimations]
  | it :: rest, d, w => by
    simp only [evaluateLocalAnimations]
    obtain ⟨h1, h2⟩ := evaluateLocalAnimations_spec env time rest
      { (env.evaluate it.2 d time w).2.1 with
        m_animations := d.m_animations
        m_hasRunningAnimations := d.m_hasRunningAnimations || (env.evaluate it.2 d time w).1 }
      (env.evaluate it.2 d time w).2.2
    constructor
    · simp [h1, EvaluateCall.subject]
    · rw [h2]
      simp [Bool.or_assoc]

theorem any_running_under (i : Nat) (l : List EvaluateCall) :
    (l.map (EvaluateCall.under i)).any (fun c => c.running) = l.any (fun c => c.running) := by
  induction l with
  | nil => rfl
  | cons c l ih => simp [EvaluateCall.under, ih]

mutual
theorem evaluateAnimations_spec {σ : Type} (env : AnimationEnv σ) (time : SkScalar) :
    ∀ (T : LayerAndroid) (w : σ),
      (evaluateAnimations env time T w).calls.map EvaluateCall.subject
          = (attachedAnimations T).map (fun e => (e.1, e.2, time))
      ∧ (evaluateAnimations env time T w).result
          = (evaluateAnimations env time T w).calls.any (fun c => c.running)
  | node d cs, w => by
    obtain ⟨k1, k2⟩ := evaluateAnimationsFrom_spec env time cs 0 false w
    obtain ⟨l1, l2⟩ := evaluateLocalAnimations_spec env time d.m_animations
      { d with m_hasRunningAnimations := false }
      (evaluateAnimationsFrom env time cs 0 false w).world
    simp only [evaluateAnimations, attachedAnimations]
    constructor
    · rw [List.map_append, List.map_append, k1, l1]
      simp
    · rw [l2, k2]
      simp
theorem evaluateAnimationsFrom_spec {σ : Type} (env : AnimationEnv σ) (time : SkScalar) :
    ∀ (cs : List LayerAndroid) (i : Nat) (acc : Bool) (w : σ),
      (evaluateAnimationsFrom env time cs i acc w).calls.map EvaluateCall.subject
          = (attachedAnimationsFrom cs i).map (fun e => (e.1, e.2, time))
      ∧ (evaluateAnimationsFrom env time cs i acc w).hasRunningAnimations
          = (acc || (evaluateAnimationsFrom env time cs i acc w).calls.any (fun c => c.running))
  | [], i, acc, w => by simp [evaluateAnimationsFrom, attachedAnimationsFrom]
  | c :: cs, i, acc, w => by
    obtain ⟨c1, c2⟩ := evaluateAnimations_spec env time c w
    obtain ⟨r1, r2⟩ := evaluateAnimationsFrom_spec env time cs (i + 1)
      (if (evaluateAnimations env time c w).result then true else acc)
      (evaluateAnimations env time c w).world
    simp only [evaluateAnimationsFrom, attachedAnimationsFrom]
    constructor
    · rw [List.map_append, List.map_append, r1]
      congr 1
      rw [List.map_map, List.map_map]
      have := congrArg (List.map (fun s : LayerRef × AndroidAnimation × SkScalar => (i :: s.1, s.2))) c1
      simpa [List.map_map, Function.comp_def, EvaluateCall.subject, EvaluateCall.under] using this
    · rw [r2, List.any_append, any_running_under, ← c2]
      cases (evaluateAnimations env time c w).result <;> simp
end

mutual
theorem mem_attachedAnimations : ∀ (T : LayerAndroid) (p : LayerRef) (a : AndroidAnimation),
    (p, a) ∈ attachedAnimations T ↔
      ∃ n, deref T p = some n ∧ ∃ k, (k, a) ∈ n.data.m_animations
  | node d cs, p, a => by
    unfold attachedAnimations
    rw [List.mem_append, mem_attachedAnimationsFrom cs 0 p a]
    constructor
    · rintro (⟨j, q, hp, c, hc, n, hn, hk⟩ | h)
      · subst hp
        refine ⟨n, ?_, hk⟩
        simp only [Nat.zero_add, deref, hc]
        exact hn
      · obtain ⟨it, hit, heq⟩ := List.mem_map.1 h
        simp only [Prod.mk.injEq] at heq
        obtain ⟨hp, ha⟩ := heq
        subst hp ha
        exact ⟨node d cs, by simp [deref], it.1, by simpa [data] using hit⟩
    · rintro ⟨n, hn, k, hk⟩
      cases p with
      | nil =>
        simp only [deref, Option.some.injEq] at hn
        subst hn
        exact Or.inr (List.mem_map.2 ⟨(k, a), by simpa [data] using hk, rfl⟩)
      | cons j q =>
        left
        simp only [deref] at hn
        cases hc : cs[j]? with
        | none => simp [hc] at hn
        | some c =>
          simp only [hc] at hn
          exact ⟨j, q, by simp, c, hc, n, hn, k, hk⟩
theorem mem_attachedAnimationsFrom : ∀ (cs : List LayerAndroid) (i : Nat) (p : LayerRef)
    (a : AndroidAnimation),
    (p, a) ∈ attachedAnimationsFrom cs i ↔
      ∃ j q, p = (i + j) :: q ∧ ∃ c, cs[j]? = some c ∧
        ∃ n, deref c q = some n ∧ ∃ k, (k, a) ∈ n.data.m_animations
  | [], i, p, a => by simp [attachedAnimationsFrom]
  | c :: cs, i, p, a => by
    unfold attachedAnimationsFrom
    rw [List.mem_append, mem_attachedAnimationsFrom cs (i + 1) p a]
    constructor
    · rintro (h | ⟨j, q, hp, c', hc', rest⟩)
      · obtain ⟨e, he, heq⟩ := List.mem_map.1 h
        simp only [Prod.mk.injEq] at heq
        obtain ⟨hp, ha⟩ := heq
        subst hp ha
        exact ⟨0, e.1, by simp, c, by simp, (mem_attachedAnimations c e.1 e.2).1 he⟩
      · exact ⟨j + 1, q, by rw [hp]; congr 1; omega, c', by simpa using hc', rest⟩
    · rintro ⟨j, q, hp, c', hc', rest⟩
      cases j with
      | zero =>
        left
        simp only [List.getElem?_cons_zero, Option.some.injEq] at hc'
        subst hc' hp
        exact List.mem_map.2 ⟨(q, a), (mem_attachedAnimations c q a).2 rest, by simp⟩
      | succ j =>
        right
        exact ⟨j, q, by rw [hp]; congr 1; omega, c', by simpa using hc', rest⟩
end

/-- C5: `evaluateAnimations(t)` returns true exactly when some animation attached to the
node or to one of its descendants reported that it is still running when it was evaluated
at `t` during the call; for a tree without any attached animation it returns false. -/
theorem evaluateAnimations_result {σ : Type} (env : AnimationEnv σ) (t : SkScalar)
    (T : LayerAndroid) (w : σ) :
    ((evaluateAnimations env t T w).result = true ↔
        ∃ c ∈ (evaluateAnimations env t T w).calls,
          c.running = true ∧ c.time = t ∧
          ∃ n, deref T c.layer = some n ∧ ∃ k, (k, c.anim) ∈ n.data.m_animations)
    ∧ ((∀ p n, deref T p = some n → n.data.m_animations = []) →
        (evaluateAnimations env t T w).result = false) := by
  obtain ⟨h1, h2⟩ := evaluateAnimations_spec env t T w
  have hsub : ∀ c ∈ (evaluateAnimations env t T w).calls,
      c.time = t ∧ (c.layer, c.anim) ∈ attachedAnimations T := by
    intro c hc
    have hm : c.subject ∈ (evaluateAnimations env t T w).calls.map EvaluateCall.subject :=
      List.mem_map.2 ⟨c, hc, rfl⟩
    rw [h1] at hm
    obtain ⟨e, he, heq⟩ := List.mem_map.1 hm
    simp only [EvaluateCall.subject, Prod.mk.injEq] at heq
    obtain ⟨e1, e2, e3⟩ := heq
    refine ⟨e3.symm, ?_⟩
    rw [← e1, ← e2]
    exact he
  constructor
  · rw [h2, List.any_eq_true]
    constructor
    · rintro ⟨c, hc, hr⟩
      exact ⟨c, hc, hr, (hsub c hc).1, (mem_attachedAnimations T c.layer c.anim).1 (hsub c hc).2⟩
    · rintro ⟨c, hc, hr, _⟩
      exact ⟨c, hc, hr⟩
  · intro hno
    have hnil : (evaluateAnimations env t T w).calls = [] := by
      cases hcalls : (evaluateAnimations env t T w).calls with
      | nil => rfl
      | cons c rest =>
        exfalso
        have hc : c ∈ (evaluateAnimations env t T w).calls := by simp [hcalls]
        obtain ⟨n, hn, k, hk⟩ := (mem_attachedAnimations T c.layer c.anim).1 (hsub c hc).2
        rw [hno c.layer n hn] at hk
        simp at hk
    rw [h2, hnil]
    rfl

/-- C6: one call of `evaluateAnimations(t)` evaluates the attached animations of the subtree
one by one, each exactly once and each with the time `t`: the calls made are, in order,
those for the animations of the descendants, child by child, followed by those for the
node's own animations, whatever the evaluations report. The list of attached animations
holds exactly the animations of the nodes of the tree. -/
theorem evaluateAnimations_calls {σ : Type} (env : AnimationEnv σ) (t : SkScalar)
    (T : LayerAndroid) (w : σ) :
    (evaluateAnimations env t T w).calls.map EvaluateCall.subject
        = (attachedAnimations T).map (fun e => (e.1, e.2, t))
    ∧ (∀ p a, (p, a) ∈ attachedAnimations T ↔
        ∃ n, deref T p = some n ∧ ∃ k, (k, a) ∈ n.data.m_animations)
    ∧ (∀ d cs, attachedAnimations (node d cs)
        = attachedAnimationsFrom cs 0 ++ d.m_animations.map (fun it => ([], it.2))) :=
  ⟨(evaluateAnimations_spec env t T w).1, mem_attachedAnimations T,
   fun d cs => by rw [attachedAnimations]⟩

/-! ## Damage merge -/

mutual
theorem induct_aux {P : LayerAndroid → Prop}
    (h : ∀ d cs, (∀ c ∈ cs, P c) → P (node d cs)) : ∀ T, P T
  | node d cs => h d cs (induct_aux_list h cs)
theorem induct_aux_list {P : LayerAndroid → Prop}
    (h : ∀ d cs, (∀ c ∈ cs, P c) → P (node d cs)) : ∀ cs : List LayerAndroid, ∀ c ∈ cs, P c
  | [], _, hc => by simp at hc
  | c :: cs, c', hc => by
    rcases List.mem_cons.1 hc with hc | hc
    · subst hc; exact induct_aux h c'
    · exact induct_aux_list h cs c' hc
end

theorem addDirtyFrom_length (g : LayerRef → SkRegion) (cs : List LayerAndroid) (i : Nat) :
    (addDirtyFrom g cs i).length = cs.length := by
  induction cs generalizing i with
  | nil => simp [addDirtyFrom]
  | cons c cs ih => simp [addDirtyFrom, ih]

theorem addDirtyFrom_getElem? (g : LayerRef → SkRegion) (cs : List LayerAndroid) (i j : Nat) :
    (addDirtyFrom g cs i)[j]? = cs[j]?.map (addDirty (fun q => g ((i + j) :: q))) := by
  induction cs generalizing i j with
  | nil => simp [addDirtyFrom]
  | cons c cs ih =>
    cases j with
    | zero => simp [addDirtyFrom]
    | succ j =>
      simp only [addDirtyFrom, List.getElem?_cons_succ, ih]
      have : i + 1 + j = i + (j + 1) := by omega
      rw [this]

theorem addDirty_empty : ∀ T : LayerAndroid, addDirty (fun _ => ∅) T = T := by
  apply induct_aux
  intro d cs ih
  unfold addDirty
  have hcs : addDirtyFrom (fun _ => ∅) cs 0 = cs := by
    apply List.ext_getElem?
    intro j
    rw [addDirtyFrom_getElem?]
    cases hc : cs[j]? with
    | none => rfl
    | some c =>
      simp only [Option.map_some']
      rw [ih c (List.getElem?_mem hc)]
  rw [hcs]
  simp

theorem addDirty_addDirty : ∀ (T : LayerAndroid) (g h : LayerRef → SkRegion),
    addDirty g (addDirty h T) = addDirty (fun q => h q ∪ g q) T := by
  apply induct_aux
  intro d cs ih g h
  simp only [addDirty]
  have hcs : addDirtyFrom g (addDirtyFrom h cs 0) 0 = addDirtyFrom (fun q => h q ∪ g q) cs 0 := by
    apply List.ext_getElem?
    intro j
    rw [addDirtyFrom_getElem?, addDirtyFrom_getElem?, addDirtyFrom_getElem?]
    cases hc : cs[j]? with
    | none => rfl
    | some c =>
      simp only [Option.map_some']
      rw [ih c (List.getElem?_mem hc)]
  rw [hcs, Finset.union_assoc]

theorem findByIdFrom_congr (m : Int) : ∀ (cs cs' : List LayerAndroid) (k : Nat),
    cs.length = cs'.length →
    (∀ (j : Nat) (c c' : LayerAndroid), cs[j]? = some c → cs'[j]? = some c' →
      findById c' m = findById c m) →
    findByIdFrom cs' k m = findByIdFrom cs k m
  | [], [], _, _, _ => rfl
  | [], _ :: _, _, hl, _ => by simp at hl
  | _ :: _, [], _, hl, _ => by simp at hl
  | c :: cs, c' :: cs', k, hl, h => by
    simp only [findByIdFrom]
    rw [h 0 c c' (by simp) (by simp)]
    rw [findByIdFrom_congr m cs cs' (k + 1) (by simpa using hl)
      (fun j a a' ha ha' => h (j + 1) a a' (by simpa using ha) (by simpa using ha'))]

theorem findById_addDirty (m : Int) : ∀ (T : LayerAndroid) (g : LayerRef → SkRegion),
    findById (addDirty g T) m = findById T m := by
  apply induct_aux
  intro d cs ih g
  simp only [addDirty, findById]
  rw [findByIdFrom_congr m cs (addDirtyFrom g cs 0) 0 (addDirtyFrom_length g cs 0).symm]
  intro j c c' hc hc'
  rw [addDirtyFrom_getElem?, hc] at hc'
  simp only [Option.map_some', Option.some.injEq] at hc'
  rw [← hc']
  exact ih c (List.getElem?_mem hc) _

theorem deref_addDirty : ∀ (p : LayerRef) (T : LayerAndroid) (g : LayerRef → SkRegion),
    deref (addDirty g T) p = (deref T p).map (addDirty (fun q => g (p ++ q)))
  | [], T, g => by
    cases T with
    | node d cs => simp [deref, addDirty]
  | i :: p, node d cs, g => by
    simp only [addDirty, deref, addDirtyFrom_getElem?]
    cases hc : cs[i]? with
    | none => simp
    | some c =>
      simp only [Option.map_some']
      rw [deref_addDirty p c]
      simp

theorem modifyAt_markAsDirty (r : SkRegion) : ∀ (p : LayerRef) (T n : LayerAndroid),
    deref T p = some n →
    modifyAt (fun l => markAsDirty l r) T p = addDirty (fun q => if q = p then r else ∅) T
  | [], node d cs, n, _ => by
    simp only [modifyAt, markAsDirty, addDirty]
    have hcs : addDirtyFrom (fun q => if q = [] then r else ∅) cs 0 = cs := by
      apply List.ext_getElem?
      intro j
      rw [addDirtyFrom_getElem?]
      cases hc : cs[j]? with
      | none => rfl
      | some c =>
        simp only [Option.map_some']
        have : (fun q => if (0 + j) :: q = ([] : LayerRef) then r else (∅ : SkRegion)) = fun _ => ∅ := by
          funext q; simp
        rw [this, addDirty_empty]
    rw [hcs]
    simp
  | i :: p, node d cs, n, hn => by
    simp only [deref] at hn
    cases hc : cs[i]? with
    | none => simp [hc] at hn
    | some c =>
      simp only [hc] at hn
      simp only [modifyAt, hc, addDirty]
      rw [modifyAt_markAsDirty r p c n hn]
      have hcs : addDirtyFrom (fun q => if q = i :: p then r else ∅) cs 0
          = cs.set i (addDirty (fun q => if q = p then r else ∅) c) := by
        apply List.ext_getElem?
        intro j
        rw [addDirtyFrom_getElem?, List.getElem?_set]
        by_cases hij : i = j
        · subst hij
          have hlt : i < cs.length := by
            rcases List.getElem?_eq_some_iff.1 hc with ⟨hlt, _⟩
            exact hlt
          simp only [hc, Option.map_some', if_true, hlt]
          congr 2
          funext q
          simp
        · simp only [hij, if_false]
          cases hc' : cs[j]? with
          | none => rfl
          | some c' =>
            simp only [Option.map_some']
            have : (fun q => if (0 + j) :: q = i :: p then r else (∅ : SkRegion)) = fun _ => ∅ := by
              funext q
              have : ¬ ((0 + j) :: q = i :: p) := by
                intro h
                simp only [Nat.zero_add, List.cons.injEq] at h
                exact hij h.1.symm
              rw [if_neg this]
            rw [this, addDirty_empty]
      rw [hcs]
      simp

theorem findById_deref (T : LayerAndroid) (id : Int) (p : LayerRef)
    (h : findById T id = some p) : ∃ n, deref T p = some n := by
  rw [findById_eq_find] at h
  cases hf : (preorder T).find? (fun e => e.2.uniqueId == id) with
  | none => simp [hf] at h
  | some e =>
    simp [hf] at h
    subst h
    exact ⟨e.2, deref_of_mem_preorder T e.1 e.2 (List.mem_of_find?_eq_some hf)⟩

theorem damageFor_append (N : LayerAndroid) (l1 l2 : List (LayerRef × LayerAndroid))
    (q : LayerRef) :
    damageFor N (l1 ++ l2) q = damageFor N l1 q ∪ damageFor N l2 q := by
  induction l1 with
  | nil => simp [damageFor]
  | cons e l1 ih => simp [damageFor, ih, Finset.union_assoc]

theorem damageFor_map (N : LayerAndroid) (f : LayerRef → LayerRef)
    (l : List (LayerRef × LayerAndroid)) (q : LayerRef) :
    damageFor N (l.map (fun e => (f e.1, e.2))) q = damageFor N l q := by
  induction l with
  | nil => rfl
  | cons e l ih => simp [damageFor, ih]

theorem mem_damageFor (N : LayerAndroid) (l : List (LayerRef × LayerAndroid)) (q : LayerRef)
    (x : Int × Int) :
    x ∈ damageFor N l q ↔
      ∃ e ∈ l, findById N e.2.uniqueId = some q ∧ x ∈ e.2.data.m_dirtyRegion := by
  induction l with
  | nil => simp [damageFor]
  | cons e l ih =>
    simp only [damageFor, Finset.mem_union, ih, List.mem_cons, exists_eq_or_imp]
    by_cases h : findById N e.2.uniqueId = some q <;> simp [h]

mutual
theorem mergeInvalsInto_eq_addDirty (N : LayerAndroid) : ∀ (O : LayerAndroid)
    (g : LayerRef → SkRegion),
    mergeInvalsInto O (addDirty g N)
      = addDirty (fun q => g q ∪ damageFor N (preorder O) q) N
  | node d cs, g => by
    simp only [mergeInvalsInto, preorder]
    rw [mergeInvalsIntoFrom_eq_addDirty N cs 0 g, findById_addDirty]
    cases hf : findById N d.m_uniqueId with
    | none =>
      simp only []
      congr 1
      funext q
      simp [damageFor, uniqueId, data, hf]
    | some p =>
      simp only []
      have hfR : findById (addDirty (fun q => g q ∪ damageFor N (preorderFrom cs 0) q) N)
          d.m_uniqueId = some p := by rw [findById_addDirty]; exact hf
      obtain ⟨n, hn⟩ := findById_deref _ _ _ hfR
      rw [modifyAt_markAsDirty d.m_dirtyRegion p _ n hn, addDirty_addDirty]
      congr 1
      funext q
      simp only [damageFor, uniqueId, data, hf, Option.some.injEq]
      by_cases hq : q = p
      · subst hq
        simp only [if_true]
        rw [Finset.union_assoc, Finset.union_comm (damageFor N (preorderFrom cs 0) q)]
      · have hq' : ¬ p = q := fun h => hq h.symm
        simp [hq, hq']
theorem mergeInvalsIntoFrom_eq_addDirty (N : LayerAndroid) : ∀ (cs : List LayerAndroid)
    (i : Nat) (g : LayerRef → SkRegion),
    mergeInvalsIntoFrom cs (addDirty g N)
      = addDirty (fun q => g q ∪ damageFor N (preorderFrom cs i) q) N
  | [], i, g => by
    simp [mergeInvalsIntoFrom, preorderFrom, damageFor]
  | c :: cs, i, g => by
    simp only [mergeInvalsIntoFrom, preorderFrom]
    rw [mergeInvalsInto_eq_addDirty N c g, mergeInvalsIntoFrom_eq_addDirty N cs (i + 1)]
    congr 1
    funext q
    rw [damageFor_append, damageFor_map, Finset.union_assoc]
end

/-- The effect of a damage merge: every node of the replacement tree gets the damage of
the nodes of the old tree that `findById` resolves to it. -/
theorem mergeInvalsInto_eq (O N : LayerAndroid) :
    mergeInvalsInto O N = addDirty (damageFor N (preorder O)) N := by
  have h := mergeInvalsInto_eq_addDirty N O (fun _ => ∅)
  rw [addDirty_empty] at h
  rw [h]
  congr 1
  funext q
  simp

theorem clearDirtyRegionFrom_getElem? (cs : List LayerAndroid) (j : Nat) :
    (clearDirtyRegionFrom cs)[j]? = cs[j]?.map clearDirtyRegion := by
  induction cs generalizing j with
  | nil => simp [clearDirtyRegionFrom]
  | cons c cs ih =>
    cases j with
    | zero => simp [clearDirtyRegionFrom]
    | succ j => simp [clearDirtyRegionFrom, ih]

theorem clearDirtyRegion_addDirty : ∀ (T : LayerAndroid) (g : LayerRef → SkRegion),
    clearDirtyRegion (addDirty g T) = clearDirtyRegion T := by
  apply induct_aux
  intro d cs ih g
  simp only [addDirty, clearDirtyRegion]
  congr 1
  apply List.ext_getElem?
  intro j
  rw [clearDirtyRegionFrom_getElem?, clearDirtyRegionFrom_getElem?, addDirtyFrom_getElem?]
  cases hc : cs[j]? with
  | none => rfl
  | some c =>
    simp only [Option.map_some']
    rw [ih c (List.getElem?_mem hc)]

theorem dirtyRegionAt_addDirty (T : LayerAndroid) (g : LayerRef → SkRegion) (p : LayerRef) :
    dirtyRegionAt (addDirty g T) p = (dirtyRegionAt T p).map (fun r => r ∪ g p) := by
  unfold dirtyRegionAt
  rw [deref_addDirty]
  cases deref T p with
  | none => rfl
  | some n =>
    cases n with
    | node d cs => simp [addDirty, data]

/-- C7: after `O.mergeInvalsInto(N)` the dirty region of every node of `N` is its previous
dirty region united with the dirty regions of the nodes of `O` whose id `findById`
resolves, in `N`, to that node; nothing else of `N` changes (the trees agree once their
dirty regions are cleared); and when no id of `O` occurs in `N` the tree `N` is left as
it is. The merge is a total function, and the old tree is only read. -/
theorem mergeInvalsInto_spec (O N : LayerAndroid) :
    (∀ p : LayerRef, ∀ x : Int × Int,
        dirtyRegionAt (mergeInvalsInto O N) p
          = (dirtyRegionAt N p).map (fun r => r ∪ damageFor N (preorder O) p)
        ∧ (x ∈ damageFor N (preorder O) p ↔
            ∃ o ∈ preorder O, findById N o.2.uniqueId = some p ∧ x ∈ o.2.data.m_dirtyRegion))
    ∧ clearDirtyRegion (mergeInvalsInto O N) = clearDirtyRegion N
    ∧ ((∀ o ∈ preorder O, findById N o.2.uniqueId = none) → mergeInvalsInto O N = N) := by
  rw [mergeInvalsInto_eq]
  refine ⟨fun p x => ⟨dirtyRegionAt_addDirty N _ p, mem_damageFor N _ p x⟩,
    clearDirtyRegion_addDirty N _, ?_⟩
  intro hnone
  have : damageFor N (preorder O) = fun _ => ∅ := by
    funext q
    ext x
    rw [mem_damageFor]
    constructor
    · rintro ⟨o, ho, hf, _⟩
      rw [hnone o ho] at hf
      cases hf
    · intro hx
      simp at hx
  rw [this, addDirty_empty]

/-- C8: damage merge is order-independent. Merging the old tree `A` and then the old tree
`B` into `N` gives the same tree as merging `B` and then `A`, so every node of `N` ends
with the same dirty region either way. -/
theorem mergeInvalsInto_comm (A B N : LayerAndroid) :
    mergeInvalsInto B (mergeInvalsInto A N) = mergeInvalsInto A (mergeInvalsInto B N)
    ∧ ∀ p : LayerRef, dirtyRegionAt (mergeInvalsInto B (mergeInvalsInto A N)) p
        = dirtyRegionAt (mergeInvalsInto A (mergeInvalsInto B N)) p := by
  have key : mergeInvalsInto B (mergeInvalsInto A N)
      = mergeInvalsInto A (mergeInvalsInto B N) := by
    rw [mergeInvalsInto_eq A N, mergeInvalsInto_eq B N,
      mergeInvalsInto_eq_addDirty N B, mergeInvalsInto_eq_addDirty N A]
    congr 1
    funext q
    exact Finset.union_comm _ _
  exact ⟨key, fun p => by rw [key]⟩

/-! ## The stable sort by Z -/

section StableSort
variable {α : Type}

theorem stableInsert_perm (comp : α → α → Bool) (x : α) (l : List α) :
    (stableInsert comp x l).Perm (x :: l) := by
  induction l with
  | nil => exact List.Perm.refl _
  | cons y ys ih =>
    simp only [stableInsert]
    split
    · exact (List.Perm.cons y ih).trans (List.Perm.swap x y ys)
    · exact List.Perm.refl _

theorem stableSort_perm (comp : α → α → Bool) (l : List α) :
    (stableSort comp l).Perm l := by
  induction l with
  | nil => exact List.Perm.refl _
  | cons x xs ih =>
    simp only [stableSort]
    exact (stableInsert_perm comp x _).trans (List.Perm.cons x ih)

/-- Sorting by a key in descending order: the result is non-increasing in the key. -/
theorem stableInsert_sorted (key : α → SkScalar) (x : α) (l : List α)
    (h : l.Pairwise (fun a b => key a ≥ key b)) :
    (stableInsert (fun a b => decide (key a > key b)) x l).Pairwise
      (fun a b => key a ≥ key b) := by
  induction l with
  | nil => simp [stableInsert]
  | cons y ys ih =>
    simp only [stableInsert]
    rw [List.pairwise_cons] at h
    by_cases hc : key y > key x
    · simp only [hc, decide_True, if_true]
      rw [List.pairwise_cons]
      refine ⟨?_, ih h.2⟩
      intro b hb
      rcases List.mem_cons.1 ((stableInsert_perm _ x ys).subset hb) with hb | hb
      · subst hb; exact le_of_lt hc
      · exact h.1 b hb
    · simp only [hc, decide_False, Bool.false_eq_true, if_false]
      rw [List.pairwise_cons]
      have hxy : key x ≥ key y := not_lt.1 hc
      refine ⟨?_, List.pairwise_cons.2 h⟩
      intro b hb
      rcases List.mem_cons.1 hb with hb | hb
      · subst hb; exact hxy
      · exact le_trans (h.1 b hb) hxy

theorem stableSort_sorted (key : α → SkScalar) (l : List α) :
    (stableSort (fun a b => decide (key a > key b)) l).Pairwise
      (fun a b => key a ≥ key b) := by
  induction l with
  | nil => simp [stableSort]
  | cons x xs ih => exact stableInsert_sorted key x _ ih

/-- The elements of one key value keep their order: inserting `x` puts it in front of the
elements of its own key. -/
theorem stableInsert_filter (key : α → SkScalar) (z : SkScalar) (x : α) (l : List α) :
    (stableInsert (fun a b => decide (key a > key b)) x l).filter (fun a => decide (key a = z))
      = (x :: l).filter (fun a => decide (key a = z)) := by
  induction l with
  | nil => simp [stableInsert]
  | cons y ys ih =>
    simp only [stableInsert]
    by_cases hc : key y > key x
    · simp only [hc, decide_True, if_true]
      rw [List.filter_cons, ih]
      by_cases hy : key y = z
      · have hx : ¬ key x = z := by
          intro hx
          rw [hx, hy] at hc
          exact lt_irrefl _ hc
        simp [List.filter_cons, hy, hx]
      · simp [List.filter_cons, hy]
    · simp only [hc, decide_False, Bool.false_eq_true, if_false]

theorem stableSort_filter (key : α → SkScalar) (z : SkScalar) (l : List α) :
    (stableSort (fun a b => decide (key a > key b)) l).filter (fun a => decide (key a = z))
      = l.filter (fun a => decide (key a = z)) := by
  induction l with
  | nil => simp [stableSort]
  | cons x xs ih =>
    simp only [stableSort]
    rw [stableInsert_filter, List.filter_cons, List.filter_cons, ih]

end StableSort

theorem sublayers_eq (cs : List LayerAndroid) :
    sublayers cs
      = stableSort (fun a b : Nat × LayerAndroid => decide ((fun s : Nat × LayerAndroid => s.2.zValue) a > (fun s : Nat × LayerAndroid => s.2.zValue) b)) cs.enum := rfl

theorem sublayers_perm (cs : List LayerAndroid) : (sublayers cs).Perm cs.enum :=
  stableSort_perm _ _

theorem sublayers_sorted (cs : List LayerAndroid) :
    (sublayers cs).Pairwise (fun a b => a.2.zValue ≥ b.2.zValue) := by
  rw [sublayers_eq]
  exact stableSort_sorted (fun s : Nat × LayerAndroid => s.2.zValue) cs.enum

theorem sublayers_stable (cs : List LayerAndroid) (z : SkScalar) :
    (sublayers cs).filter (fun a => decide (a.2.zValue = z))
      = cs.enum.filter (fun a => decide (a.2.zValue = z)) := by
  rw [sublayers_eq]
  exact stableSort_filter (fun s : Nat × LayerAndroid => s.2.zValue) z cs.enum

theorem mem_sublayers {cs : List LayerAndroid} {sub : Nat × LayerAndroid} :
    sub ∈ sublayers cs ↔ cs[sub.1]? = some sub.2 := by
  rw [(sublayers_perm cs).mem_iff]
  exact List.mk_mem_enum_iff_getElem?

theorem sublayers_nodup (cs : List LayerAndroid) : ((sublayers cs).map Prod.fst).Nodup := by
  have h : ((sublayers cs).map Prod.fst).Perm (cs.enum.map Prod.fst) :=
    (sublayers_perm cs).map _
  rw [h.nodup_iff, List.enum_map_fst]
  exact List.nodup_range _

/-! ## Render-group assignment -/

theorem assignGroupsEach_getElem? (cs : List LayerAndroid) (i : Nat) :
    (assignGroupsEach cs)[i]?
      = cs[i]?.map (fun c => (fun self allGroups => assignGroups c self allGroups : AssignCall)) := by
  induction cs generalizing i with
  | nil => simp [assignGroupsEach]
  | cons c cs ih =>
    cases i with
    | zero => simp [assignGroupsEach]
    | succ i => simp [assignGroupsEach, ih]

theorem paintOrderEach_getElem? (cs : List LayerAndroid) (i : Nat) :
    (paintOrderEach cs)[i]? = cs[i]?.map paintOrder := by
  induction cs generalizing i with
  | nil => simp [paintOrderEach]
  | cons c cs ih =>
    cases i with
    | zero => simp [paintOrderEach]
    | succ i => simp [paintOrderEach, ih]

theorem paintOrder_node (d : LayerData) (cs : List LayerAndroid) :
    paintOrder (node d cs)
      = [] :: ((sublayers cs).map
          (fun sub => (paintOrder sub.2).map (fun r => sub.1 :: r))).flatten := by
  rw [paintOrder]
  congr 2
  apply List.map_congr_left
  intro sub hsub
  have h := mem_sublayers.1 hsub
  simp [List.getD_eq_getElem?_getD, paintOrderEach_getElem?, h]

theorem groupsOf_node (self : LayerRef) (d : LayerData) (cs : List LayerAndroid) :
    groupsOf self (node d cs)
      = { m_layers := [self] }
        :: ((sublayers cs).map (fun sub => groupsOf (self ++ [sub.1]) sub.2)).flatten := by
  unfold groupsOf
  rw [paintOrder_node]
  simp only [List.map_cons, List.append_nil, List.map_flatten, List.map_map]
  congr 2
  apply List.map_congr_left
  intro sub _
  simp [Function.comp_def]

theorem getElem?_append_of_some {β : Type} (X Y : List β) (k : Nat) (g : β)
    (h : X[k]? = some g) : (X ++ Y)[k]? = some g := by
  obtain ⟨hlt, _⟩ := List.getElem?_eq_some_iff.1 h
  rw [List.getElem?_append_left hlt]
  exact h

theorem assignGroupsVisit_spec (cs0 : List LayerAndroid) (self : LayerRef)
    (IH : ∀ c ∈ cs0, AssignsGroups c) :
    ∀ (L : List (Nat × LayerAndroid)) (cur : List LayerAndroid) (G : List LayerGroup),
      (∀ sub ∈ L, cs0[sub.1]? = some sub.2) → (L.map Prod.fst).Nodup →
      cur.length = cs0.length →
      (assignGroupsVisit self (assignGroupsEach cs0) L cur G).2
          = G ++ (L.map (fun sub => groupsOf (self ++ [sub.1]) sub.2)).flatten
      ∧ (assignGroupsVisit self (assignGroupsEach cs0) L cur G).1.length = cs0.length
      ∧ (∀ j, j ∉ L.map Prod.fst →
          (assignGroupsVisit self (assignGroupsEach cs0) L cur G).1[j]? = cur[j]?)
      ∧ (∀ sub ∈ L, ∀ r n, deref sub.2 r = some n →
          ∃ c' n' k, (assignGroupsVisit self (assignGroupsEach cs0) L cur G).1[sub.1]? = some c'
            ∧ deref c' r = some n' ∧ n'.data.m_layerGroup = some k
            ∧ (assignGroupsVisit self (assignGroupsEach cs0) L cur G).2[k]?
                = some { m_layers := [self ++ sub.1 :: r] })
  | [], cur, G, _, _, hlen => by
    simp [assignGroupsVisit, hlen]
  | sub :: rest, cur, G, hmem, hnd, hlen => by
    have hsub : cs0[sub.1]? = some sub.2 := hmem sub (List.mem_cons_self _ _)
    have hcall : (assignGroupsEach cs0)[sub.1]?
        = some (fun self allGroups => assignGroups sub.2 self allGroups) := by
      rw [assignGroupsEach_getElem?, hsub]; rfl
    simp only [List.map_cons, List.nodup_cons] at hnd
    obtain ⟨hnotin, hnd'⟩ := hnd
    obtain ⟨hG, hnodes⟩ := IH sub.2 (List.getElem?_mem hsub) (self ++ [sub.1]) G
    have hlt : sub.1 < cur.length := by
      rw [hlen]
      exact (List.getElem?_eq_some_iff.1 hsub).1
    obtain ⟨r1, r2, r3, r4⟩ := assignGroupsVisit_spec cs0 self IH rest
      (cur.set sub.1 (assignGroups sub.2 (self ++ [sub.1]) G).1)
      (assignGroups sub.2 (self ++ [sub.1]) G).2
      (fun s hs => hmem s (List.mem_cons_of_mem _ hs)) hnd'
      (by rw [List.length_set]; exact hlen)
    simp only [assignGroupsVisit, hcall]
    refine ⟨?_, r2, ?_, ?_⟩
    · rw [r1, hG]
      simp [List.append_assoc]
    · intro j hj
      simp only [List.map_cons, List.mem_cons, not_or] at hj
      rw [r3 j hj.2, List.getElem?_set]
      have : ¬ sub.1 = j := fun h => hj.1 h.symm
      simp [this]
    · intro s hs r n hn
      rcases List.mem_cons.1 hs with hs | hs
      · subst hs
        obtain ⟨n', k, h1, h2, h3⟩ := hnodes r n hn
        refine ⟨(assignGroups s.2 (self ++ [s.1]) G).1, n', k, ?_, h1, h2, ?_⟩
        · rw [r3 s.1 hnotin, List.getElem?_set]
          simp [hlt]
        · rw [r1]
          have := getElem?_append_of_some _
            ((rest.map (fun sub => groupsOf (self ++ [sub.1]) sub.2)).flatten) k _ h3
          simpa [List.append_assoc] using this
      · exact r4 s hs r n hn

theorem assignGroups_spec : ∀ T : LayerAndroid, AssignsGroups T := by
  apply induct_aux
  intro d cs IH self G
  obtain ⟨v1, v2, v3, v4⟩ := assignGroupsVisit_spec cs self IH (sublayers cs) cs
    ((G ++ [({ m_layers := [] } : LayerGroup)]).modify (fun g => g.addLayer self) G.length)
    (fun sub hs => mem_sublayers.1 hs) (sublayers_nodup cs) rfl
  have hmod : (G ++ [({ m_layers := [] } : LayerGroup)]).modify (fun g => g.addLayer self) G.length
      = G ++ [{ m_layers := [self] }] := by
    apply List.ext_getElem?
    intro j
    rw [List.getElem?_modify]
    by_cases hj : G.length = j
    · subst hj
      simp [LayerGroup.addLayer]
    · simp only [hj, if_false]
      rcases Nat.lt_or_ge j G.length with hlt | hge
      · rw [List.getElem?_append_left hlt, List.getElem?_append_left hlt]
        simp
      · have hgt : G.length < j := lt_of_le_of_ne hge hj
        rw [List.getElem?_eq_none (by simp; omega), List.getElem?_eq_none (by simp; omega)]
        rfl
  rw [hmod] at v1 v4
  simp only [assignGroups, Bool.or_true, if_true]
  rw [hmod]
  constructor
  · rw [v1, groupsOf_node]
    simp
  · intro r n hn
    cases r with
    | nil =>
      refine ⟨_, G.length, rfl, ?_, ?_⟩
      · rfl
      · rw [v1, List.append_assoc, List.getElem?_append_right (le_refl _)]
        simp
    | cons i q =>
      simp only [deref] at hn
      cases hc : cs[i]? with
      | none => simp [hc] at hn
      | some c =>
        simp only [hc] at hn
        obtain ⟨c', n', k, h1, h2, h3, h4⟩ := v4 (i, c) (mem_sublayers.2 hc) q n hn
        refine ⟨n', k, ?_, h3, h4⟩
        simp only [deref]
        simp only at h1
        rw [h1]
        exact h2

theorem preorderFrom_map_fst (cs : List LayerAndroid) (i : Nat) :
    (preorderFrom cs i).map Prod.fst
      = (cs.enumFrom i).flatMap
          (fun s => ((preorder s.2).map Prod.fst).map (fun r => s.1 :: r)) := by
  induction cs generalizing i with
  | nil => simp [preorderFrom]
  | cons c cs ih =>
    simp only [preorderFrom, List.map_append, List.map_map, ih, List.enumFrom_cons,
      List.flatMap_cons]
    rfl

theorem preorder_map_fst (d : LayerData) (cs : List LayerAndroid) :
    (preorder (node d cs)).map Prod.fst
      = [] :: cs.enum.flatMap
          (fun s => ((preorder s.2).map Prod.fst).map (fun r => s.1 :: r)) := by
  rw [preorder, List.map_cons, preorderFrom_map_fst]
  rfl

theorem paintOrder_perm : ∀ T : LayerAndroid, (paintOrder T).Perm ((preorder T).map Prod.fst) := by
  apply induct_aux
  intro d cs IH
  rw [paintOrder_node, preorder_map_fst]
  apply List.Perm.cons
  rw [← List.flatMap_def]
  refine ((sublayers_perm cs).flatMap_right _).trans ?_
  apply List.Perm.flatMap_left
  intro s hs
  have hmem : s.2 ∈ cs := by
    have := List.mk_mem_enum_iff_getElem?.1 (show (s.1, s.2) ∈ cs.enum from hs)
    exact List.getElem?_mem this
  exact (IH s.2 hmem).map _

theorem preorder_nodup : ∀ T : LayerAndroid, ((preorder T).map Prod.fst).Nodup := by
  apply induct_aux
  intro d cs IH
  rw [preorder_map_fst, List.nodup_cons]
  constructor
  · intro h
    obtain ⟨s, _, hs⟩ := List.mem_flatMap.1 h
    obtain ⟨r, _, hr⟩ := List.mem_map.1 hs
    cases hr
  · rw [List.nodup_flatMap]
    constructor
    · intro s hs
      have hmem : s.2 ∈ cs := by
        have := List.mk_mem_enum_iff_getElem?.1 (show (s.1, s.2) ∈ cs.enum from hs)
        exact List.getElem?_mem this
      exact (IH s.2 hmem).map (fun a b hab => by simpa using hab)
    · have hnd : (cs.enum.map Prod.fst).Nodup := List.nodup_enum_map_fst cs
      have hpw : cs.enum.Pairwise (fun a b => a.1 ≠ b.1) := by
        rw [List.Nodup, List.pairwise_map] at hnd
        exact hnd
      refine hpw.imp ?_
      intro a b hab
      simp only [Function.onFun, List.disjoint_left]
      intro p hpa hpb
      obtain ⟨ra, _, hra⟩ := List.mem_map.1 hpa
      obtain ⟨rb, _, hrb⟩ := List.mem_map.1 hpb
      rw [← hrb] at hra
      simp only [List.cons.injEq] at hra
      exact hab hra.1

/-- C9: `assignGroups` on the root with an empty group vector leaves one group for every
node. The groups, in the order of the vector, hold exactly one node each, and the members
in that order are the Z-sorted preorder traversal of the tree (the node first, then its
children in the order of the stable sort by descending Z); that traversal lists every
node of the tree exactly once; and every node ends with its group pointer on the group
that holds it. -/
theorem assignGroups_covers (T : LayerAndroid) :
    ((assignGroups T [] []).2).map (fun g => g.m_layers) = (paintOrder T).map (fun r => [r])
    ∧ (((assignGroups T [] []).2).map (fun g => g.m_layers)).flatten = paintOrder T
    ∧ (paintOrder T).Perm ((preorder T).map Prod.fst)
    ∧ (paintOrder T).Nodup
    ∧ (∀ r n, deref T r = some n →
        ∃ n' k, deref (assignGroups T [] []).1 r = some n'
          ∧ n'.data.m_layerGroup = some k
          ∧ ((assignGroups T [] []).2)[k]? = some { m_layers := [r] })
    ∧ (∀ d cs, paintOrder (node d cs)
        = [] :: ((sublayers cs).map
            (fun sub => (paintOrder sub.2).map (fun r => sub.1 :: r))).flatten) := by
  obtain ⟨h1, h2⟩ := assignGroups_spec T [] []
  have hg : ((assignGroups T [] []).2).map (fun g => g.m_layers)
      = (paintOrder T).map (fun r => [r]) := by
    rw [h1]
    simp [groupsOf, Function.comp_def]
  refine ⟨hg, ?_, paintOrder_perm T, ?_, ?_, paintOrder_node⟩
  · rw [hg]
    induction paintOrder T with
    | nil => rfl
    | cons r rs ih => simpa using ih
  · exact (paintOrder_perm T).nodup_iff.2 (preorder_nodup T)
  · intro r n hn
    obtain ⟨n', k, a, b, c⟩ := h2 r n hn
    exact ⟨n', k, a, b, by simpa using c⟩

/-! ## Visiting order of the children -/

theorem drawCanvasEach_getElem? (cs : List LayerAndroid) (i : Nat) :
    (drawCanvasEach cs)[i]? = cs[i]?.map (fun c => (fun self => drawCanvas c self : DrawCall)) := by
  induction cs generalizing i with
  | nil => simp [drawCanvasEach]
  | cons c cs ih =>
    cases i with
    | zero => simp [drawCanvasEach]
    | succ i => simp [drawCanvasEach, ih]

theorem drawChildrenVisit_events (cs0 : List LayerAndroid) (self : LayerRef) :
    ∀ (L : List (Nat × LayerAndroid)) (askScreenUpdate : Bool),
      (∀ sub ∈ L, cs0[sub.1]? = some sub.2) →
      (drawChildrenVisit self (drawCanvasEach cs0) L askScreenUpdate).2
        = (L.map (fun sub => (drawCanvas sub.2 (self ++ [sub.1])).2)).flatten
  | [], _, _ => by simp [drawChildrenVisit]
  | sub :: rest, acc, hmem => by
    have hsub : cs0[sub.1]? = some sub.2 := hmem sub (List.mem_cons_self _ _)
    have hcall : (drawCanvasEach cs0)[sub.1]? = some (fun self => drawCanvas sub.2 self) := by
      rw [drawCanvasEach_getElem?, hsub]; rfl
    simp only [drawChildrenVisit, hcall, List.map_cons, List.flatten_cons]
    rw [drawChildrenVisit_events cs0 self rest _ (fun s hs => hmem s (List.mem_cons_of_mem _ hs))]

/-- C10: the children are visited in the order of the vector `sublayers`. That vector is a
permutation of the children, it is sorted by non-increasing Z, and the children of one Z
value keep their index order (the sort with the comparator a.z > b.z is stable).
`drawChildrenCanvas` calls `drawCanvas` on the children in that order and `assignGroups`
recurses into them in that order; for the Z values 5, 3, 5, 1, 5 the order is child 0, 2, 4
(the three with Z 5), then child 1, then child 3. -/
theorem sublayers_stable_descending (d : LayerData) (cs : List LayerAndroid) (self : LayerRef)
    (G : List LayerGroup) :
    (sublayers cs).Perm cs.enum
    ∧ (sublayers cs).Pairwise (fun a b => a.2.zValue ≥ b.2.zValue)
    ∧ (∀ z : SkScalar, (sublayers cs).filter (fun a => decide (a.2.zValue = z))
        = cs.enum.filter (fun a => decide (a.2.zValue = z)))
    ∧ (drawChildrenCanvas (node d cs) self).2
        = ((sublayers cs).map (fun sub => (drawCanvas sub.2 (self ++ [sub.1])).2)).flatten
    ∧ (assignGroups (node d cs) self G).2
        = G ++ { m_layers := [self] }
            :: ((sublayers cs).map (fun sub => groupsOf (self ++ [sub.1]) sub.2)).flatten
    ∧ (sublayers exampleChildren).map (fun sub => (sub.1, sub.2.zValue))
        = [(0, 5), (2, 5), (4, 5), (1, 3), (3, 1)] := by
  refine ⟨sublayers_perm cs, sublayers_sorted cs, sublayers_stable cs, ?_, ?_, by decide⟩
  · rw [drawChildrenCanvas]
    exact drawChildrenVisit_events cs self (sublayers cs) false (fun sub hs => mem_sublayers.1 hs)
  · rw [(assignGroups_spec (node d cs) self G).1, groupsOf_node]

/-! ## Transform and positioning pass -/

/-- The members `updateGLPositionsAndScale` sets on the layer it is called on. -/
theorem updateGLPositionsAndScale_data (env : TransformEnv) (d : LayerData)
    (cs : List LayerAndroid) (parentMatrix : TransformationMatrix) (clipping : FloatRect)
    (opacity scale : SkScalar) :
    (updateGLPositionsAndScale env (node d cs) parentMatrix clipping opacity scale).layer.data
      = { d with
          m_drawTransform := (alignedDrawTransform env (localMatrixOf env d parentMatrix) scale).1
          m_zValue := env.zValue
            (alignedDrawTransform env (localMatrixOf env d parentMatrix) scale).1
            d.m_size.fWidth d.m_size.fHeight
          m_scale := scale
          m_drawOpacity := opacity * d.m_opacity
          m_clippingRect := drawClipOf env d
            (alignedDrawTransform env (localMatrixOf env d parentMatrix) scale).1 clipping
          m_visible := !backfaceCulled env d
            (alignedDrawTransform env (localMatrixOf env d parentMatrix) scale).1 } := by
  simp only [updateGLPositionsAndScale]
  split <;> rename_i h <;> simp [data, h]

/-- The children after `updateGLPositionsAndScale`: untouched under a culled layer, and
otherwise each child after its own call with the child matrix, the draw clip and the
absolute opacity of the layer. -/
theorem updateGLPositionsAndScale_children (env : TransformEnv) (d : LayerData)
    (cs : List LayerAndroid) (parentMatrix : TransformationMatrix) (clipping : FloatRect)
    (opacity scale : SkScalar) :
    (updateGLPositionsAndScale env (node d cs) parentMatrix clipping opacity scale).layer.children
      = if backfaceCulled env d
            (alignedDrawTransform env (localMatrixOf env d parentMatrix) scale).1 then cs
        else (updateGLPositionsAndScaleFrom env cs
            (childMatrixOf env d (localMatrixOf env d parentMatrix))
            (drawClipOf env d
              (alignedDrawTransform env (localMatrixOf env d parentMatrix) scale).1 clipping)
            (opacity * d.m_opacity) scale).1 := by
  simp only [updateGLPositionsAndScale]
  split <;> simp [children]

theorem updateGLPositionsAndScaleFrom_getElem? (env : TransformEnv)
    (childMatrix : TransformationMatrix) (drawClip : FloatRect) (opacity scale : SkScalar) :
    ∀ (cs : List LayerAndroid) (i : Nat),
      (updateGLPositionsAndScaleFrom env cs childMatrix drawClip opacity scale).1[i]?
        = cs[i]?.map (fun c =>
            (updateGLPositionsAndScale env c childMatrix drawClip opacity scale).layer)
  | [], i => by simp [updateGLPositionsAndScaleFrom]
  | c :: cs, 0 => by simp [updateGLPositionsAndScaleFrom]
  | c :: cs, i + 1 => by
    simp only [updateGLPositionsAndScaleFrom, List.getElem?_cons_succ]
    exact updateGLPositionsAndScaleFrom_getElem? env childMatrix drawClip opacity scale cs i

theorem localMatrixOf_fixed (env : TransformEnv) (d : LayerData)
    (parentMatrix : TransformationMatrix) (h : d.isFixed = true) :
    localMatrixOf env d parentMatrix = localMatrixOf env { d with isFixed := false } {} := by
  simp [localMatrixOf, layerSize, h]

/-- C11: the absolute draw transform of a fixed-position node does not depend on the parent
matrix. Two runs of `updateGLPositionsAndScale` that differ in the parent matrix only give
the node the same draw transform, and it is the draw transform a node that is not fixed
gets from the identity as parent matrix. -/
theorem fixed_drawTransform_ignores_parent (env : TransformEnv) (T : LayerAndroid)
    (P1 P2 : TransformationMatrix) (clipping : FloatRect) (opacity scale : SkScalar)
    (hfixed : T.data.isFixed = true) :
    (updateGLPositionsAndScale env T P1 clipping opacity scale).layer.data.m_drawTransform
      = (updateGLPositionsAndScale env T P2 clipping opacity scale).layer.data.m_drawTransform
    ∧ (updateGLPositionsAndScale env T P1 clipping opacity scale).layer.data.m_drawTransform
      = (alignedDrawTransform env
          (localMatrixOf env { T.data with isFixed := false } {}) scale).1 := by
  cases T with
  | node d cs =>
    simp only [data] at hfixed
    rw [updateGLPositionsAndScale_data, updateGLPositionsAndScale_data]
    simp only [data]
    rw [localMatrixOf_fixed env d P1 hfixed, localMatrixOf_fixed env d P2 hfixed]
    exact ⟨rfl, rfl⟩

theorem fixed_drawTransform_ignores_parent_witness :
    Example.fixedLayer.data.isFixed = true
    ∧ (updateGLPositionsAndScale Example.env Example.fixedLayer {} Example.clip1000 1 1
        ).layer.data.m_drawTransform
      = (updateGLPositionsAndScale Example.env Example.fixedLayer Example.translation100
          Example.clip1000 1 1).layer.data.m_drawTransform :=
  ⟨rfl, (fixed_drawTransform_ignores_parent Example.env Example.fixedLayer {}
    Example.translation100 Example.clip1000 1 1 rfl).1⟩

/-- C12: in `updateGLPositionsAndScale`, a node whose backface visibility is disabled and
whose draw transform has an inverse with a negative element m33 gets its visible flag
cleared, and its children are left exactly as they were (no descendant is visited); in
every other case the visible flag is set. For the layer turned by 180 degrees about the
Y axis the flag is cleared and the child keeps its stale values. -/
theorem backface_culling (env : TransformEnv) (d : LayerData) (cs : List LayerAndroid)
    (parentMatrix : TransformationMatrix) (clipping : FloatRect) (opacity scale : SkScalar) :
    ((d.m_backfaceVisibility = false
        ∧ (env.inverse (updateGLPositionsAndScale env (node d cs) parentMatrix clipping
            opacity scale).layer.data.m_drawTransform).m33 < 0) →
      (updateGLPositionsAndScale env (node d cs) parentMatrix clipping opacity scale
        ).layer.data.m_visible = false
      ∧ (updateGLPositionsAndScale env (node d cs) parentMatrix clipping opacity scale
        ).layer.children = cs)
    ∧ (¬ (d.m_backfaceVisibility = false
        ∧ (env.inverse (updateGLPositionsAndScale env (node d cs) parentMatrix clipping
            opacity scale).layer.data.m_drawTransform).m33 < 0) →
      (updateGLPositionsAndScale env (node d cs) parentMatrix clipping opacity scale
        ).layer.data.m_visible = true)
    ∧ ((updateGLPositionsAndScale Example.env Example.backfaceTree {} Example.clip1000 1 1
        ).layer.data.m_visible = false
      ∧ ((updateGLPositionsAndScale Example.env Example.backfaceTree {} Example.clip1000 1 1
        ).layer.children.map (fun c => c.data.m_drawOpacity)) = [7]) := by
  rw [updateGLPositionsAndScale_data, updateGLPositionsAndScale_children]
  simp only []
  refine ⟨?_, ?_, by decide!⟩
  · rintro ⟨h1, h2⟩
    have hc : backfaceCulled env d
        (alignedDrawTransform env (localMatrixOf env d parentMatrix) scale).1 = true := by
      simp [backfaceCulled, h1, h2]
    simp [hc]
  · intro h
    have hc : backfaceCulled env d
        (alignedDrawTransform env (localMatrixOf env d parentMatrix) scale).1 = false := by
      rw [Bool.eq_false_iff]
      intro hc
      apply h
      simpa [backfaceCulled] using hc
    simp [hc]

/-- The absolute opacity of the nodes the pass reaches. -/
theorem drawOpacity_along_path (env : TransformEnv) (scale : SkScalar) :
    ∀ (p : LayerRef) (T : LayerAndroid) (P : TransformationMatrix) (clipping : FloatRect)
      (o : SkScalar),
      visibleAbove (updateGLPositionsAndScale env T P clipping o scale).layer p = true →
      ((updateGLPositionsAndScale env T P clipping o scale).layer.deref p).map
          (fun n => n.data.m_drawOpacity)
        = (T.deref p).map (fun _ => (pathOpacities T p).foldl (fun a b => a * b) o)
  | [], node d cs, P, clipping, o, _ => by
    have hd := updateGLPositionsAndScale_data env d cs P clipping o scale
    cases hR : (updateGLPositionsAndScale env (node d cs) P clipping o scale).layer with
    | node d' cs' =>
      rw [hR] at hd
      simp only [data] at hd
      simp [deref, pathOpacities, data, hd]
  | i :: q, node d cs, P, clipping, o, hvis => by
    have hd := updateGLPositionsAndScale_data env d cs P clipping o scale
    have hc := updateGLPositionsAndScale_children env d cs P clipping o scale
    cases hR : (updateGLPositionsAndScale env (node d cs) P clipping o scale).layer with
    | node d' cs' =>
      rw [hR] at hd hc hvis
      simp only [data] at hd
      simp only [children] at hc
      simp only [visibleAbove] at hvis
      cases hk : cs'[i]? with
      | none => simp [hk] at hvis
      | some c' =>
        simp only [hk, Bool.and_eq_true] at hvis
        obtain ⟨hv, hrest⟩ := hvis
        have hnc : backfaceCulled env d
            (alignedDrawTransform env (localMatrixOf env d P) scale).1 = false := by
          rw [hd] at hv
          simpa using hv
        rw [hnc] at hc
        simp only [Bool.false_eq_true, if_false] at hc
        rw [hc, updateGLPositionsAndScaleFrom_getElem?] at hk
        cases hci : cs[i]? with
        | none => simp [hci] at hk
        | some c =>
          simp only [hci, Option.map_some', Option.some.injEq] at hk
          subst hk
          have ih := drawOpacity_along_path env scale q c _ _ _ hrest
          simp only [deref, pathOpacities, hci, List.foldl_cons]
          rw [hc, updateGLPositionsAndScaleFrom_getElem?, hci]
          simpa using ih

/-- C18: after `updateGLPositionsAndScale` with the opacity `o`, every node the pass reaches
(every node whose proper ancestors all end up visible, that is, not culled) has the draw
opacity `o` multiplied, node by node on the way down from the root of the pass, by the
own opacities of the nodes on the path to it, the node included. -/
theorem drawOpacity_is_product (env : TransformEnv) (T : LayerAndroid)
    (P : TransformationMatrix) (clipping : FloatRect) (o scale : SkScalar) (p : LayerRef)
    (hreached :
      visibleAbove (updateGLPositionsAndScale env T P clipping o scale).layer p = true) :
    ((updateGLPositionsAndScale env T P clipping o scale).layer.deref p).map
        (fun n => n.data.m_drawOpacity)
      = (T.deref p).map (fun _ => (pathOpacities T p).foldl (fun a b => a * b) o) :=
  drawOpacity_along_path env scale p T P clipping o hreached

theorem drawOpacity_is_product_witness :
    visibleAbove (updateGLPositionsAndScale Example.env Example.opacityTree {}
        Example.clip1000 1 1).layer [0, 0] = true
    ∧ ((updateGLPositionsAndScale Example.env Example.opacityTree {} Example.clip1000 1 1
        ).layer.deref [0, 0]).map (fun n => n.data.m_drawOpacity)
      = (Example.opacityTree.deref [0, 0]).map
          (fun _ => (pathOpacities Example.opacityTree [0, 0]).foldl (fun a b => a * b) 1) :=
  ⟨by decide!, drawOpacity_is_product Example.env Example.opacityTree {} Example.clip1000 1 1
    [0, 0] (by decide!)⟩

theorem toInt_intCast (n : Int) : toInt (n : SkScalar) = n := by
  unfold toInt
  split <;> simp [Rat.floor, Rat.ceil]

/-- C19 (as amended): `updateGLPositionsAndScale` with the incoming clip `C` gives a node
without a clip of its own the draw clip `C`, and a node with its own clip the image of the
rectangle (0, 0, w, h) under its draw transform, intersected with `C`, where `w` and `h`
are the width and the height of the node with the fraction dropped (the local
`layerSize`); every child of a node that is not culled is processed with the draw clip of
the node as incoming clip; and for a size in whole numbers the rectangle is that of the
size itself. -/
theorem drawClip_spec (env : TransformEnv) (d : LayerData) (cs : List LayerAndroid)
    (parentMatrix : TransformationMatrix) (C : FloatRect) (opacity scale : SkScalar) :
    (updateGLPositionsAndScale env (node d cs) parentMatrix C opacity scale
        ).layer.data.m_clippingRect
      = (if d.m_haveClip then
          env.intersect
            (env.mapRect
              (updateGLPositionsAndScale env (node d cs) parentMatrix C opacity scale
                ).layer.data.m_drawTransform
              { x := 0, y := 0, width := (layerSize d).width, height := (layerSize d).height })
            C
        else C)
    ∧ ((updateGLPositionsAndScale env (node d cs) parentMatrix C opacity scale
          ).layer.data.m_visible = true →
        ∀ i : Nat,
          (updateGLPositionsAndScale env (node d cs) parentMatrix C opacity scale
            ).layer.children[i]?
          = cs[i]?.map (fun c =>
              (updateGLPositionsAndScale env c
                (childMatrixOf env d (localMatrixOf env d parentMatrix))
                (updateGLPositionsAndScale env (node d cs) parentMatrix C opacity scale
                  ).layer.data.m_clippingRect
                (opacity * d.m_opacity) scale).layer))
    ∧ (∀ w h : Int, d.m_size = { fWidth := w, fHeight := h } →
        ({ x := 0, y := 0, width := (layerSize d).width, height := (layerSize d).height }
            : FloatRect)
          = { x := 0, y := 0, width := d.m_size.fWidth, height := d.m_size.fHeight }) := by
  rw [updateGLPositionsAndScale_data, updateGLPositionsAndScale_children]
  simp only []
  refine ⟨?_, ?_, ?_⟩
  rotate_left
  · intro hv i
    have hnc : backfaceCulled env d
        (alignedDrawTransform env (localMatrixOf env d parentMatrix) scale).1 = false := by
      simpa using hv
    simp only [hnc, Bool.false_eq_true, if_false]
    exact updateGLPositionsAndScaleFrom_getElem? env _ _ _ _ cs i
  · intro w h hsize
    simp [layerSize, hsize, toInt_intCast]
  · simp [drawClipOf]

/-- C19 (as stated) fails: a layer of 1/2 by 1/2 with a clip of its own, under the identity
and the clip of 1000 by 1000, gets the empty draw clip, the image of (0, 0, 0, 0), and
not the image of its bounds (0, 0, 1/2, 1/2) intersected with the clip. -/
theorem drawClip_fractional_size :
    (updateGLPositionsAndScale Example.env Example.halfLayer {} Example.clip1000 1 1
      ).layer.data.m_clippingRect = { x := 0, y := 0, width := 0, height := 0 }
    ∧ Example.env.intersect
        (Example.env.mapRect
          (updateGLPositionsAndScale Example.env Example.halfLayer {} Example.clip1000 1 1
            ).layer.data.m_drawTransform
          { x := 0, y := 0, width := Example.halfLayer.data.m_size.fWidth,
            height := Example.halfLayer.data.m_size.fHeight })
        Example.clip1000
      = { x := 0, y := 0, width := 1/2, height := 1/2 }
    ∧ (updateGLPositionsAndScale Example.env Example.halfLayer {} Example.clip1000 1 1
      ).layer.data.m_clippingRect
      ≠ Example.env.intersect
        (Example.env.mapRect
          (updateGLPositionsAndScale Example.env Example.halfLayer {} Example.clip1000 1 1
            ).layer.data.m_drawTransform
          { x := 0, y := 0, width := Example.halfLayer.data.m_size.fWidth,
            height := Example.halfLayer.data.m_size.fHeight })
        Example.clip1000 := by
  decide!

theorem divisors_eq_scale (env : TransformEnv) (scale : SkScalar) :
    ∀ (T : LayerAndroid) (P : TransformationMatrix) (clipping : FloatRect) (o : SkScalar),
      ∀ x ∈ (updateGLPositionsAndScale env T P clipping o scale).divisors, x = scale := by
  apply induct_aux
  intro d cs IH P clipping o
  have hkids : ∀ (l : List LayerAndroid), (∀ c ∈ l, c ∈ cs) →
      ∀ (M : TransformationMatrix) (C : FloatRect) (o' : SkScalar),
      ∀ x ∈ (updateGLPositionsAndScaleFrom env l M C o' scale).2, x = scale := by
    intro l
    induction l with
    | nil => intro _ M C o' x hx; simp [updateGLPositionsAndScaleFrom] at hx
    | cons c l ih =>
      intro hsub M C o' x hx
      simp only [updateGLPositionsAndScaleFrom, List.mem_append] at hx
      rcases hx with hx | hx
      · exact IH c (hsub c (List.mem_cons_self _ _)) M C o' x hx
      · exact ih (fun c' hc' => hsub c' (List.mem_cons_of_mem _ hc')) M C o' x hx
  have halign : ∀ x ∈ (alignedDrawTransform env (localMatrixOf env d P) scale).2, x = scale := by
    intro x hx
    unfold alignedDrawTransform at hx
    split at hx
    · simpa using hx
    · simp at hx
  intro x hx
  simp only [updateGLPositionsAndScale] at hx
  split at hx
  · exact halign x hx
  · simp only [List.mem_append] at hx
    rcases hx with hx | hx
    · exact halign x hx
    · exact hkids cs (fun c hc => hc) _ _ _ x hx

/-- C20 (as amended): with a scale other than 0, no division made by the body of
`updateGLPositionsAndScale` has the divisor 0, whatever the tree (layers of size zero
included), the parent matrix, the clip and the opacity: the only divisions are those by
the scale in the alignment of a pure translation. -/
theorem no_division_by_zero (env : TransformEnv) (T : LayerAndroid)
    (P : TransformationMatrix) (clipping : FloatRect) (o scale : SkScalar)
    (hscale : scale ≠ 0) :
    ∀ x ∈ (updateGLPositionsAndScale env T P clipping o scale).divisors, x ≠ 0 := by
  intro x hx
  rw [divisors_eq_scale env scale T P clipping o x hx]
  exact hscale

theorem no_division_by_zero_witness :
    (1 : SkScalar) ≠ 0
    ∧ ∀ x ∈ (updateGLPositionsAndScale Example.env Example.emptyLayer {} Example.clip1000
        1 1).divisors, x ≠ 0 :=
  ⟨by decide, no_division_by_zero Example.env Example.emptyLayer {} Example.clip1000 1 1
    (by decide)⟩

/-- C20 (as stated) fails: with the scale 0, aligning the translation of a layer of size
zero divides by 0. -/
theorem division_by_zero_scale :
    (updateGLPositionsAndScale Example.env Example.emptyLayer {} Example.clip1000 1 0
      ).divisors = [0, 0] := by
  decide!

/-! ## Draw dispatch -/

/-- C13: `drawCanvas` on a node whose visible flag is false returns false at once: apart
from the entry into the call nothing happens, so nothing is drawn and no damage is
reported, neither for the node nor for any of its descendants. -/
theorem drawCanvas_invisible (T : LayerAndroid) (self : LayerRef)
    (hhidden : T.data.m_visible = false) :
    drawCanvas T self = (false, [DrawEvent.drawCanvas self])
    ∧ (∀ (l : LayerRef) (opacity : SkScalar),
        DrawEvent.onDraw l opacity ∉ (drawCanvas T self).2)
    ∧ (∀ l : LayerRef, DrawEvent.addDirtyArea l ∉ (drawCanvas T self).2) := by
  cases T with
  | node d cs =>
    simp only [data] at hhidden
    have h : drawCanvas (node d cs) self = (false, [DrawEvent.drawCanvas self]) := by
      simp [drawCanvas, hhidden]
    rw [h]
    simp

theorem drawCanvas_invisible_witness :
    Example.hiddenTree.data.m_visible = false
    ∧ drawCanvas Example.hiddenTree [] = (false, [DrawEvent.drawCanvas []]) :=
  ⟨rfl, (drawCanvas_invisible Example.hiddenTree [] rfl).1⟩

/-- C15 fails on the code: for a visible layer without running animation and without
perspective whose visible child has a running animation, `drawCanvas` reports the child
to the damage accumulator but not the layer itself, and returns false. -/
theorem drawCanvas_parent_not_reported :
    drawCanvas Example.animatedChildTree []
      = (false, [DrawEvent.drawCanvas [], DrawEvent.onDraw [] 0, DrawEvent.drawCanvas [0],
          DrawEvent.onDraw [0] 0, DrawEvent.addDirtyArea [0]])
    ∧ DrawEvent.addDirtyArea [] ∉ (drawCanvas Example.animatedChildTree []).2 := by
  decide

/-! ## Fixed layers and embedded frames -/

/-- C14 fails on the code: for the innermost of three nested iframe roots at (10, 0),
(20, 0) and (30, 0), `updateFixedLayersPositions` records the position of the enclosing
iframe root plus its own position, (50, 0), while the recorded offset of the enclosing
iframe root, (30, 0), plus its own position is (60, 0). -/
theorem updateFixedLayersPositions_depth_three :
    ((updateFixedLayersPositions Example.nestedIframes Example.clip1000 none).deref [0]).map
        (fun n => n.data.m_iframeOffset) = some { x := 30, y := 0 }
    ∧ ((updateFixedLayersPositions Example.nestedIframes Example.clip1000 none).deref [0, 0]).map
        (fun n => (n.data.m_position, n.data.m_iframeOffset))
      = some ({ fX := 30, fY := 0 }, { x := 50, y := 0 }) := by
  decide!

/-! ## Textures for painting -/

theorem setIsPaintingFrom_no_texture (self : LayerRef) (drawingTree : Option LayerAndroid)
    (cs0 : List LayerAndroid)
    (IH : ∀ c ∈ cs0, (∀ p n, deref c p = some n → needsTexture n.data = false) →
      ∀ self, setIsPainting c self drawingTree = some (c, [])) :
    ∀ (cs : List LayerAndroid) (i : Nat), (∀ c ∈ cs, c ∈ cs0) →
      (∀ c ∈ cs, ∀ p n, deref c p = some n → needsTexture n.data = false) →
      setIsPaintingFrom cs self i drawingTree = some (cs, [])
  | [], _, _, _ => by simp [setIsPaintingFrom]
  | c :: cs, i, hsub, hno => by
    simp only [setIsPaintingFrom]
    rw [IH c (hsub c (List.mem_cons_self _ _)) (hno c (List.mem_cons_self _ _))]
    simp only []
    rw [setIsPaintingFrom_no_texture self drawingTree cs0 IH cs (i + 1)
      (fun c' hc' => hsub c' (List.mem_cons_of_mem _ hc'))
      (fun c' hc' => hno c' (List.mem_cons_of_mem _ hc'))]
    simp

theorem setIsPainting_no_texture (drawingTree : Option LayerAndroid) :
    ∀ T : LayerAndroid, (∀ p n, deref T p = some n → needsTexture n.data = false) →
      ∀ self, setIsPainting T self drawingTree = some (T, []) := by
  apply induct_aux
  intro d cs IH hno self
  have hroot : needsTexture d = false := hno [] (node d cs) (by simp [deref])
  have hkids : ∀ c ∈ cs, ∀ p n, deref c p = some n → needsTexture n.data = false := by
    intro c hc p n hn
    obtain ⟨i, hi⟩ := List.getElem?_of_mem hc
    exact hno (i :: p) n (by simp [deref, hi, hn])
  simp only [setIsPainting]
  rw [setIsPaintingFrom_no_texture self drawingTree cs IH cs 0 (fun c hc => hc) hkids]
  simp [obtainTextureForPainting, hroot]

/-- C16 (as amended): for a node without recorded content, or with recorded content of
width or height 0, `obtainTextureForPainting` does not fault, calls no collaborator and
leaves the node, its dirty region included, as it is, with or without a group; and
`setIsPainting` does the same on a tree in which no node needs a texture. -/
theorem obtainTextureForPainting_nothing_to_draw (d : LayerData) (self : LayerRef)
    (drawingLayer : Option LayerRef) (hnone : needsTexture d = false) :
    obtainTextureForPainting d self drawingLayer = some (d, [])
    ∧ (d.m_recordingPicture = none → needsTexture d = false)
    ∧ ∀ (T : LayerAndroid) (drawingTree : Option LayerAndroid),
        (∀ p n, deref T p = some n → needsTexture n.data = false) →
        setIsPainting T self drawingTree = some (T, []) := by
  refine ⟨by simp [obtainTextureForPainting, hnone], ?_, ?_⟩
  · intro h
    simp [needsTexture, h]
  · intro T drawingTree hno
    exact setIsPainting_no_texture drawingTree T hno self

theorem obtainTextureForPainting_nothing_to_draw_witness :
    needsTexture Example.noContent = false
    ∧ obtainTextureForPainting Example.noContent [] none = some (Example.noContent, []) :=
  ⟨rfl, (obtainTextureForPainting_nothing_to_draw Example.noContent [] none rfl).1⟩

/-- C16 (as stated) fails: on a node with recorded content of 10 by 10 and no group,
`obtainTextureForPainting` dereferences the null group pointer. -/
theorem obtainTextureForPainting_null_group :
    Example.ungroupedContent.m_layerGroup = none
    ∧ needsTexture Example.ungroupedContent = true
    ∧ obtainTextureForPainting Example.ungroupedContent [] none = none
    ∧ setIsPainting (node Example.ungroupedContent []) [] none = none :=
  ⟨rfl, rfl, rfl, rfl⟩

/-! ## Derived state under deep copy -/

theorem deref_copyConstruct_derived : ∀ (p : LayerRef) (raw : LayerData) (T : LayerAndroid)
    (st : SubclassType),
    (deref (copyConstruct raw T st) p).map derivedState
      = (deref T p).map
          (fun n => (n.data.m_drawTransform, n.data.m_scale, n.data.m_visible, none))
  | [], raw, node d cs, st => by
    unfold copyConstruct
    simp [deref, derivedState, data, copyData]
  | i :: p, raw, node d cs, st => by
    unfold copyConstruct
    simp only [deref, copyChildren_getElem?]
    cases h : cs[i]? with
    | none => simp
    | some c => simpa using deref_copyConstruct_derived p raw c SubclassType.CopyLayer

/-- C17 (as amended): at every node of a deep copy the group assignment is that of a fresh
node (no group), while the absolute draw transform, the draw scale and the visible flag
are those of the source node. -/
theorem copy_derived_state (raw : LayerData) (T : LayerAndroid) (subclassType : SubclassType)
    (p : LayerRef) :
    (deref (copyConstruct raw T subclassType) p).map derivedState
      = (deref T p).map
          (fun n => (n.data.m_drawTransform, n.data.m_scale, n.data.m_visible, none)) :=
  deref_copyConstruct_derived p raw T subclassType

/-- C17 (as stated) fails: the copy of a layer that is invisible, with the scale 2 and a
draw transform that translates by (100, 100), is invisible, has the scale 2 and that draw
transform, not the values of a fresh node. -/
theorem copy_keeps_derived_state :
    derivedState (copy { m_uniqueId := 0 } Example.computedLayer)
      = (Example.translation100, 2, false, none)
    ∧ derivedState (copy { m_uniqueId := 0 } Example.computedLayer)
      ≠ (({} : TransformationMatrix), 1, true, none) := by
  decide!

/-! ## Clearing the dirty regions -/

theorem clearDirtyRegionFrom_length (cs : List LayerAndroid) :
    (clearDirtyRegionFrom cs).length = cs.length := by
  induction cs with
  | nil => simp [clearDirtyRegionFrom]
  | cons c cs ih => simp [clearDirtyRegionFrom, ih]

theorem deref_clearDirtyRegion : ∀ (p : LayerRef) (T : LayerAndroid),
    deref (clearDirtyRegion T) p = (deref T p).map clearDirtyRegion
  | [], node d cs => by simp [deref, clearDirtyRegion]
  | i :: p, node d cs => by
    simp only [clearDirtyRegion, deref, clearDirtyRegionFrom_getElem?]
    cases h : cs[i]? with
    | none => simp
    | some c => simpa using deref_clearDirtyRegion p c

/-- C21: after `clearDirtyRegion` on the root the tree has a node exactly where it had one
before, every node has an empty dirty region, and every other member of every node and
the number of its children are as before. -/
theorem clearDirtyRegion_spec (T : LayerAndroid) (p : LayerRef) :
    (deref (clearDirtyRegion T) p).map (fun n => (n.data, n.countChildren))
      = (deref T p).map (fun n => ({ n.data with m_dirtyRegion := ∅ }, n.countChildren))
    ∧ dirtyRegionAt (clearDirtyRegion T) p = (dirtyRegionAt T p).map (fun _ => ∅) := by
  unfold dirtyRegionAt
  rw [deref_clearDirtyRegion]
  cases deref T p with
  | none => simp
  | some n =>
    cases n with
    | node d cs =>
      simp [clearDirtyRegion, data, countChildren, children, clearDirtyRegionFrom_length]

/-! ## Removing animations -/

/-- On a keyed set, removing the collected keys of the animations of a name removes
exactly the entries whose animation has that name. -/
theorem removeAnimationsForKeyframes_keyed (d : LayerData) (cs : List LayerAndroid)
    (name : String) (h : Keyed d.m_animations) :
    (removeAnimationsForKeyframes (node d cs) name).data.m_animations
      = d.m_animations.filter (fun e => e.2.name != name) := by
  simp only [removeAnimationsForKeyframes, data, foldl_remove_eq_filter]
  apply List.filter_congr
  intro e he
  have hk := h e he
  by_cases ht : e.2.name = name
  · have : e.1 ∈ (d.m_animations.filter (fun it => it.2.name == name)).map Prod.fst :=
      List.mem_map.2 ⟨e, List.mem_filter.2 ⟨he, by simpa using ht⟩, rfl⟩
    simp [this, ht]
  · have : e.1 ∉ (d.m_animations.filter (fun it => it.2.name == name)).map Prod.fst := by
      intro hm
      obtain ⟨e', he', hkey⟩ := List.mem_map.1 hm
      obtain ⟨hm', ht'⟩ := List.mem_filter.1 he'
      have hk' := h e' hm'
      apply ht
      have : e.1.1 = e'.1.1 := by rw [hkey]
      rw [hk, hk'] at this
      simp at ht'
      simpa [ht'] using this
    simp [this, ht]

/-- C22: on a node whose animation set is keyed, `removeAnimationsForProperty(k)` leaves
exactly the attached animations whose kind is not `k`, and `removeAnimationsForKeyframes(s)`
exactly those whose name is not `s`, in place and under their keys; when no attached
animation matches, the node is left as it is. -/
theorem removeAnimations_spec (l : LayerAndroid) (k : Int) (s : String)
    (h : Keyed l.data.m_animations) :
    (removeAnimationsForProperty l k).data.m_animations
        = l.data.m_animations.filter (fun e => e.2.type != k)
    ∧ (removeAnimationsForKeyframes l s).data.m_animations
        = l.data.m_animations.filter (fun e => e.2.name != s)
    ∧ ((∀ e ∈ l.data.m_animations, e.2.type ≠ k) → removeAnimationsForProperty l k = l)
    ∧ ((∀ e ∈ l.data.m_animations, e.2.name ≠ s) → removeAnimationsForKeyframes l s = l) := by
  cases l with
  | node d cs =>
    simp only [data] at h
    refine ⟨removeAnimationsForProperty_keyed d cs k h,
      removeAnimationsForKeyframes_keyed d cs s h, ?_, ?_⟩
    · intro hno
      have hp := removeAnimationsForProperty_keyed d cs k h
      have hf : d.m_animations.filter (fun e => e.2.type != k) = d.m_animations := by
        rw [List.filter_eq_self]
        intro e he
        simpa using hno e he
      simp only [removeAnimationsForProperty, data] at hp ⊢
      rw [hp, hf]
    · intro hno
      have hp := removeAnimationsForKeyframes_keyed d cs s h
      have hf : d.m_animations.filter (fun e => e.2.name != s) = d.m_animations := by
        rw [List.filter_eq_self]
        intro e he
        simpa using hno e he
      simp only [removeAnimationsForKeyframes, data] at hp ⊢
      rw [hp, hf]

theorem removeAnimations_spec_witness :
    Keyed exampleAnimatedLayer.data.m_animations
    ∧ (removeAnimationsForProperty exampleAnimatedLayer 1).data.m_animations
        = exampleAnimatedLayer.data.m_animations.filter (fun e => e.2.type != 1) :=
  ⟨exampleAnimatedLayer_keyed,
   (removeAnimations_spec exampleAnimatedLayer 1 "fade" exampleAnimatedLayer_keyed).1⟩

/-! ## The painting pass -/

theorem paintingCall_under (self : LayerRef) (i : Nat) (drawingTree : Option LayerAndroid)
    (l : List (LayerRef × LayerAndroid)) :
    (l.map (fun e => (i :: e.1, e.2))).filterMap (paintingCall self drawingTree)
      = l.filterMap (paintingCall (self ++ [i]) drawingTree) := by
  rw [List.filterMap_map]
  apply List.filterMap_congr
  intro e _
  simp [paintingCall, Function.comp_def]

mutual
theorem setIsPainting_eq (drawingTree : Option LayerAndroid) : ∀ (T : LayerAndroid)
    (self : LayerRef), (∀ p n, deref T p = some n → n.data.m_layerGroup ≠ none) →
    setIsPainting T self drawingTree
      = some (painted T, (postorder T).filterMap (paintingCall self drawingTree))
  | node d cs, self, hgroups => by
    have hkids : ∀ (j : Nat) (c : LayerAndroid), cs[j]? = some c →
        ∀ p n, deref c p = some n → n.data.m_layerGroup ≠ none := by
      intro j c hc p n hn
      exact hgroups (j :: p) n (by simp [deref, hc, hn])
    have hroot : d.m_layerGroup ≠ none := hgroups [] (node d cs) (by simp [deref])
    simp only [setIsPainting]
    rw [setIsPaintingFrom_eq drawingTree cs self 0 (fun j c hc => hkids j c hc)]
    simp only [postorder, painted, List.filterMap_append]
    cases hg : d.m_layerGroup with
    | none => exact absurd hg hroot
    | some g =>
      cases hn : needsTexture d with
      | false =>
        simp [obtainTextureForPainting, paintingCall, paintedData, hn, data]
      | true =>
        cases drawingTree with
        | none =>
          simp [obtainTextureForPainting, paintingCall, paintedData, hn, hg, data, uniqueId]
        | some tree =>
          simp [obtainTextureForPainting, paintingCall, paintedData, hn, hg, data, uniqueId]
theorem setIsPaintingFrom_eq (drawingTree : Option LayerAndroid) : ∀ (cs : List LayerAndroid)
    (self : LayerRef) (i : Nat),
    (∀ (j : Nat) (c : LayerAndroid), cs[j]? = some c →
      ∀ p n, deref c p = some n → n.data.m_layerGroup ≠ none) →
    setIsPaintingFrom cs self i drawingTree
      = some (paintedFrom cs, (postorderFrom cs i).filterMap (paintingCall self drawingTree))
  | [], self, i, _ => by simp [setIsPaintingFrom, paintedFrom, postorderFrom]
  | c :: cs, self, i, hgroups => by
    simp only [setIsPaintingFrom]
    rw [setIsPainting_eq drawingTree c (self ++ [i]) (hgroups 0 c (by simp)),
      setIsPaintingFrom_eq drawingTree cs self (i + 1)
        (fun j c' hc' => hgroups (j + 1) c' (by simpa using hc'))]
    simp only [paintedFrom, postorderFrom, List.filterMap_append, paintingCall_under]
end

theorem paintedFrom_getElem? (cs : List LayerAndroid) (j : Nat) :
    (paintedFrom cs)[j]? = cs[j]?.map painted := by
  induction cs generalizing j with
  | nil => simp [paintedFrom]
  | cons c cs ih =>
    cases j with
    | zero => simp [paintedFrom]
    | succ j => simp [paintedFrom, ih]

theorem deref_painted : ∀ (p : LayerRef) (T : LayerAndroid),
    deref (painted T) p = (deref T p).map painted
  | [], node d cs => by simp [deref, painted]
  | i :: p, node d cs => by
    simp only [painted, deref, paintedFrom_getElem?]
    cases h : cs[i]? with
    | none => simp
    | some c => simpa using deref_painted p c

theorem paintedFrom_length (cs : List LayerAndroid) : (paintedFrom cs).length = cs.length := by
  induction cs with
  | nil => simp [paintedFrom]
  | cons c cs ih => simp [paintedFrom, ih]

mutual
theorem postorder_perm_preorder : ∀ T : LayerAndroid, (postorder T).Perm (preorder T)
  | node d cs => by
    rw [postorder, preorder]
    exact (List.perm_append_comm).trans
      (List.Perm.cons _ (postorderFrom_perm_preorderFrom cs 0))
theorem postorderFrom_perm_preorderFrom : ∀ (cs : List LayerAndroid) (i : Nat),
    (postorderFrom cs i).Perm (preorderFrom cs i)
  | [], i => by simp [postorderFrom, preorderFrom]
  | c :: cs, i => by
    rw [postorderFrom, preorderFrom]
    exact List.Perm.append ((postorder_perm_preorder c).map _)
      (postorderFrom_perm_preorderFrom cs (i + 1))
end

theorem mem_preorderFrom_of_getElem? : ∀ (cs : List LayerAndroid) (k j : Nat)
    (c : LayerAndroid) (q : LayerRef) (n : LayerAndroid),
    cs[j]? = some c → (q, n) ∈ preorder c → ((k + j) :: q, n) ∈ preorderFrom cs k
  | [], _, _, _, _, _, h, _ => by simp at h
  | c0 :: cs, k, 0, c, q, n, h, hq => by
    simp only [List.getElem?_cons_zero, Option.some.injEq] at h
    subst h
    rw [preorderFrom]
    exact List.mem_append_left _ (List.mem_map.2 ⟨(q, n), hq, rfl⟩)
  | c0 :: cs, k, j + 1, c, q, n, h, hq => by
    rw [preorderFrom]
    apply List.mem_append_right
    have := mem_preorderFrom_of_getElem? cs (k + 1) j c q n (by simpa using h) hq
    have e : k + 1 + j = k + (j + 1) := by omega
    rw [e] at this
    exact this

theorem mem_preorder_of_deref : ∀ (p : LayerRef) (T n : LayerAndroid),
    deref T p = some n → (p, n) ∈ preorder T
  | [], node d cs, n, h => by
    simp only [deref, Option.some.injEq] at h
    subst h
    rw [preorder]
    exact List.mem_cons_self _ _
  | i :: p, node d cs, n, h => by
    simp only [deref] at h
    cases hc : cs[i]? with
    | none => simp [hc] at h
    | some c =>
      simp only [hc] at h
      rw [preorder]
      apply List.mem_cons_of_mem
      have := mem_preorderFrom_of_getElem? cs 0 i c p n hc (mem_preorder_of_deref p c n h)
      simpa using this

/-- C23: on a tree in which every node has a group, `setIsPainting(drawingTree)` does not
fault and makes exactly the calls owed to the nodes that need a texture, one for each
such node, the nodes taken children first: each call goes to the group of the node with
the node, its dirty region from before the pass and the node of its id in the drawing
tree (none for the null tree or an id that the tree does not hold). Afterwards the nodes
that need a texture have an empty dirty region and everything else is as before. -/
theorem setIsPainting_spec (T : LayerAndroid) (self : LayerRef)
    (drawingTree : Option LayerAndroid)
    (hgroups : ∀ e ∈ preorder T, e.2.data.m_layerGroup ≠ none) :
    setIsPainting T self drawingTree
      = some (painted T, (postorder T).filterMap (paintingCall self drawingTree))
    ∧ (postorder T).Perm (preorder T)
    ∧ (∀ e : LayerRef × LayerAndroid, paintingCall self drawingTree e
        = if needsTexture e.2.data then
            e.2.data.m_layerGroup.map (fun group =>
              { group := group, layer := self ++ e.1, dirtyRegion := e.2.data.m_dirtyRegion,
                drawingLayer := drawingTree.bind (fun tree => findById tree e.2.uniqueId) })
          else none)
    ∧ (∀ p : LayerRef,
        (deref (painted T) p).map (fun n => (n.data, n.countChildren))
          = (deref T p).map (fun n =>
              (if needsTexture n.data then { n.data with m_dirtyRegion := ∅ } else n.data,
                n.countChildren))) := by
  refine ⟨setIsPainting_eq drawingTree T self
      (fun p n hn => hgroups (p, n) (mem_preorder_of_deref p T n hn)),
    postorder_perm_preorder T, fun e => rfl, ?_⟩
  intro p
  rw [deref_painted]
  cases deref T p with
  | none => simp
  | some n =>
    cases n with
    | node d cs =>
      simp [painted, paintedData, data, countChildren, children, paintedFrom_length]

theorem setIsPainting_spec_witness :
    (∀ e ∈ preorder Example.paintingTree, e.2.data.m_layerGroup ≠ none)
    ∧ setIsPainting Example.paintingTree [] (some Example.drawingTree)
      = some (painted Example.paintingTree,
          (postorder Example.paintingTree).filterMap
            (paintingCall [] (some Example.drawingTree))) :=
  ⟨by decide, (setIsPainting_spec Example.paintingTree [] (some Example.drawingTree)
    (by decide)).1⟩

/-! ## Incremental update -/

/-- C24: `updateWithTree` returns true for every pair of trees, the null new tree
included, and leaves both trees as they are. -/
theorem updateWithTree_full_resync (layer : LayerAndroid) (newTree : Option LayerAndroid) :
    (updateWithTree layer newTree).1 = true
    ∧ (updateWithTree layer newTree).2.1 = layer
    ∧ (updateWithTree layer newTree).2.2 = newTree
    ∧ (updateWithTree layer none).1 = true :=
  ⟨rfl, rfl, rfl, rfl⟩

/-! ## The animation-set invariant -/

theorem onePerKind_filter (m : KeyframesMap) (f : AnimKey × AndroidAnimation → Bool)
    (h : OnePerKind m) : OnePerKind (m.filter f) :=
  List.Nodup.sublist ((List.filter_sublist m).map _) h

theorem applyOp_invariant (l : LayerAndroid) (op : AnimationOp)
    (hk : Keyed l.data.m_animations) (ho : OnePerKind l.data.m_animations) :
    Keyed (applyOp l op).data.m_animations ∧ OnePerKind (applyOp l op).data.m_animations := by
  cases op with
  | addAnimation a =>
    simp only [applyOp]
    rw [addAnimation_keyed l a hk]
    constructor
    · intro e he
      rcases List.mem_append.1 he with he | he
      · exact hk e (List.mem_of_mem_filter he)
      · simp at he
        subst he
        rfl
    · unfold OnePerKind
      rw [List.map_append, List.nodup_append]
      refine ⟨onePerKind_filter _ _ ho, by simp, ?_⟩
      intro x hx hx'
      simp only [List.map_cons, List.map_nil, List.mem_singleton] at hx'
      obtain ⟨e, he, hxe⟩ := List.mem_map.1 hx
      have ht := (List.mem_filter.1 he).2
      rw [hx'] at hxe
      simp [hxe] at ht
  | removeAnimationsForProperty k =>
    cases l with
    | node d cs =>
      simp only [applyOp]
      simp only [data] at hk ho
      rw [removeAnimationsForProperty_keyed d cs k hk]
      exact ⟨keyed_filter _ _ hk, onePerKind_filter _ _ ho⟩
  | removeAnimationsForKeyframes s =>
    cases l with
    | node d cs =>
      simp only [applyOp]
      simp only [data] at hk ho
      rw [removeAnimationsForKeyframes_keyed d cs s hk]
      exact ⟨keyed_filter _ _ hk, onePerKind_filter _ _ ho⟩

theorem applyOps_invariant (ops : List AnimationOp) : ∀ (l : LayerAndroid),
    Keyed l.data.m_animations → OnePerKind l.data.m_animations →
    Keyed (applyOps l ops).data.m_animations ∧ OnePerKind (applyOps l ops).data.m_animations := by
  induction ops with
  | nil => intro l hk ho; exact ⟨hk, ho⟩
  | cons op ops ih =>
    intro l hk ho
    obtain ⟨hk', ho'⟩ := applyOp_invariant l op hk ho
    exact ih (applyOp l op) hk' ho'

/-- Copying the entries into a map that holds none of their keys appends them, when their
keys differ from one another. -/
theorem copyAnimations_append : ∀ (l : List (AnimKey × AndroidAnimation)) (m : KeyframesMap),
    (m.map Prod.fst ++ l.map Prod.fst).Nodup → copyAnimations l m = m ++ l
  | [], m, _ => by simp [copyAnimations]
  | it :: rest, m, h => by
    have hnot : m.any (fun e => e.1 == it.1) = false := by
      rw [List.any_eq_false]
      intro e he
      simp only [beq_iff_eq]
      intro heq
      rw [List.nodup_append] at h
      exact h.2.2 (List.mem_map.2 ⟨e, he, heq⟩) (by simp)
    have hadd : m.add it.1 it.2 = m ++ [it] := by
      simp [KeyframesMap.add, hnot]
    simp only [copyAnimations, hadd]
    rw [copyAnimations_append rest (m ++ [it])]
    · simp
    · simpa [List.map_append, List.append_assoc] using h

theorem keys_nodup_of_invariant (m : KeyframesMap) (hk : Keyed m) (ho : OnePerKind m) :
    (m.map Prod.fst).Nodup := by
  unfold OnePerKind at ho
  rw [List.Nodup, List.pairwise_map] at ho ⊢
  refine List.Pairwise.imp_of_mem ?_ ho
  intro a b ha hb hab heq
  apply hab
  have h1 := hk a ha
  have h2 := hk b hb
  rw [h1, h2] at heq
  simp only [Prod.mk.injEq] at heq
  exact heq.2

/-- C25: the animation-set invariant. Starting from a node with the empty animation set,
after any sequence of `addAnimation`, `removeAnimationsForProperty` and
`removeAnimationsForKeyframes` every entry is stored under the name and the type of its
animation and no two entries have the same property kind; a deep copy of the node has
the same animation set, so the same holds in it. -/
theorem animation_set_invariant (d : LayerData) (cs : List LayerAndroid)
    (ops : List AnimationOp) (raw : LayerData) (subclassType : SubclassType) :
    Keyed (applyOps (node { d with m_animations := [] } cs) ops).data.m_animations
    ∧ OnePerKind (applyOps (node { d with m_animations := [] } cs) ops).data.m_animations
    ∧ (copyConstruct raw (applyOps (node { d with m_animations := [] } cs) ops)
          subclassType).data.m_animations
        = (applyOps (node { d with m_animations := [] } cs) ops).data.m_animations
    ∧ Keyed (copyConstruct raw (applyOps (node { d with m_animations := [] } cs) ops)
          subclassType).data.m_animations
    ∧ OnePerKind (copyConstruct raw (applyOps (node { d with m_animations := [] } cs) ops)
          subclassType).data.m_animations := by
  obtain ⟨hk, ho⟩ := applyOps_invariant ops (node { d with m_animations := [] } cs)
    (by intro e he; simp [data] at he) (by simp [OnePerKind, data])
  have hcopy : (copyConstruct raw (applyOps (node { d with m_animations := [] } cs) ops)
      subclassType).data.m_animations
      = (applyOps (node { d with m_animations := [] } cs) ops).data.m_animations := by
    cases hn : applyOps (node { d with m_animations := [] } cs) ops with
    | node d' cs' =>
      rw [hn] at hk ho
      simp only [data] at hk ho
      unfold copyConstruct
      simp only [data, copyData]
      rw [copyAnimations_append d'.m_animations [] (by simpa using keys_nodup_of_invariant _ hk ho)]
      simp
  refine ⟨hk, ho, hcopy, ?_, ?_⟩
  · rw [hcopy]; exact hk
  · rw [hcopy]; exact ho

/-! ## The value returned by the draw traversal -/

theorem drawChildrenVisit_false (self : LayerRef) (calls : List DrawCall)
    (h : ∀ call ∈ calls, ∀ s, (call s).1 = false) :
    ∀ (L : List (Nat × LayerAndroid)) (askScreenUpdate : Bool),
      (drawChildrenVisit self calls L askScreenUpdate).1 = askScreenUpdate
  | [], _ => by simp [drawChildrenVisit]
  | sub :: rest, acc => by
    simp only [drawChildrenVisit]
    cases hc : calls[sub.1]? with
    | none => exact drawChildrenVisit_false self calls h rest acc
    | some call =>
      simp only []
      rw [drawChildrenVisit_false self calls h rest, h call (List.getElem?_mem hc)]
      simp

theorem drawCanvas_false : ∀ (T : LayerAndroid) (self : LayerRef),
    (drawCanvas T self).1 = false := by
  apply induct_aux
  intro d cs IH self
  have hcalls : ∀ call ∈ drawCanvasEach cs, ∀ s, (call s).1 = false := by
    intro call hcall s
    obtain ⟨i, hi⟩ := List.getElem?_of_mem hcall
    rw [drawCanvasEach_getElem?] at hi
    cases hc : cs[i]? with
    | none => simp [hc] at hi
    | some c =>
      simp only [hc, Option.map_some', Option.some.injEq] at hi
      rw [← hi]
      exact IH c (List.getElem?_mem hc) s
  simp only [drawCanvas]
  split
  · rfl
  · simp [drawChildrenVisit_false self _ hcalls]

/-- C26: `drawCanvas` returns false on every tree, whatever the running animations and the
perspective of the draw transforms, in a layer at any place; `drawChildrenCanvas` returns
false as well; and on a visible layer the value `drawCanvas` returns is the one
`drawChildrenCanvas` returns, the disjunction of the values of the children. -/
theorem drawCanvas_returns_false (T : LayerAndroid) (self : LayerRef) :
    (drawCanvas T self).1 = false
    ∧ (drawChildrenCanvas T self).1 = false
    ∧ (T.data.m_visible = true → (drawCanvas T self).1 = (drawChildrenCanvas T self).1) := by
  have hkids : (drawChildrenCanvas T self).1 = false := by
    cases T with
    | node d cs =>
      simp only [drawChildrenCanvas]
      apply drawChildrenVisit_false
      intro call hcall s
      obtain ⟨i, hi⟩ := List.getElem?_of_mem hcall
      rw [drawCanvasEach_getElem?] at hi
      cases hc : cs[i]? with
      | none => simp [hc] at hi
      | some c =>
        simp only [hc, Option.map_some', Option.some.injEq] at hi
        rw [← hi]
        exact drawCanvas_false c s
  refine ⟨drawCanvas_false T self, hkids, ?_⟩
  intro _
  rw [drawCanvas_false T self, hkids]

/-! ## Visibility -/

theorem deref_append : ∀ (p q : LayerRef) (T : LayerAndroid),
    deref T (p ++ q) = (deref T p).bind (fun n => deref n q)
  | [], q, T => by
    cases T with
    | node d cs => simp [deref]
  | i :: p, q, node d cs => by
    simp only [List.cons_append, deref]
    cases h : cs[i]? with
    | none => simp
    | some c => simpa using deref_append p q c

theorem visibleFlagsBelowRoot_snoc : ∀ (p : LayerRef) (i : Nat) (T n : LayerAndroid),
    deref T (p ++ [i]) = some n →
    visibleFlagsBelowRoot T (p ++ [i]) = visibleFlagsBelowRoot T p ++ [n.data.m_visible]
  | [], i, node d cs, n, h => by
    simp only [List.nil_append, deref] at h
    cases hc : cs[i]? with
    | none => simp [hc] at h
    | some c =>
      simp only [hc] at h
      cases c with
      | node d' cs' =>
        simp only [deref, Option.some.injEq] at h
        subst h
        simp [visibleFlagsBelowRoot, hc]
  | j :: p, i, node d cs, n, h => by
    simp only [List.cons_append, deref] at h
    cases hc : cs[j]? with
    | none => simp [hc] at h
    | some c =>
      simp only [hc] at h
      simp only [List.cons_append, visibleFlagsBelowRoot, hc]
      have ih := visibleFlagsBelowRoot_snoc p i c n h
      simp only [List.append_eq] at ih ⊢
      rw [ih]

/-- The loop of `visible()` from a node of the tree returns the conjunction of the visible
flags of the nodes from that node up to the root, the root excluded. -/
theorem visibleFrom_eq (T : LayerAndroid) : ∀ (up : List Nat) (n : LayerAndroid),
    deref T up.reverse = some n →
    visibleFrom T up = some ((visibleFlagsBelowRoot T up.reverse).all id)
  | [], _, _ => by
    cases T with
    | node d cs => simp [visibleFrom, visibleFlagsBelowRoot]
  | i :: up, n, h => by
    have h' := h
    simp only [List.reverse_cons] at h'
    have hflags := visibleFlagsBelowRoot_snoc up.reverse i T n h'
    rw [deref_append] at h'
    cases hp : deref T up.reverse with
    | none => simp [hp] at h'
    | some parent =>
      have ih := visibleFrom_eq T up parent hp
      simp only [visibleFrom, h]
      simp only [List.reverse_cons, hflags, List.all_append, List.all_cons, List.all_nil,
        Bool.and_true, id]
      cases hv : n.data.m_visible with
      | false => simp
      | true => simpa using ih

theorem mem_visibleFlagsBelowRoot : ∀ (p : LayerRef) (T n : LayerAndroid),
    deref T p = some n →
    (false ∈ visibleFlagsBelowRoot T p ↔
      ∃ q m, q ≠ [] ∧ q <+: p ∧ deref T q = some m ∧ m.data.m_visible = false)
  | [], T, n, _ => by
    cases T with
    | node d cs =>
      simp only [visibleFlagsBelowRoot, List.not_mem_nil, false_iff]
      rintro ⟨q, m, hq, hpre, _⟩
      exact hq (List.prefix_nil.1 hpre)
  | i :: p, node d cs, n, h => by
    simp only [deref] at h
    cases hc : cs[i]? with
    | none => simp [hc] at h
    | some c =>
      simp only [hc] at h
      have ih := mem_visibleFlagsBelowRoot p c n h
      simp only [visibleFlagsBelowRoot, hc, List.mem_cons]
      constructor
      · rintro (hv | hrest)
        · exact ⟨[i], c, by simp, by simp [List.prefix_cons_inj, List.nil_prefix],
            by simp [deref, hc], hv.symm⟩
        · obtain ⟨q, m, hq, hpre, hd, hm⟩ := ih.1 hrest
          exact ⟨i :: q, m, by simp, (List.prefix_cons_inj i).2 hpre,
            by simp [deref, hc, hd], hm⟩
      · rintro ⟨q, m, hq, hpre, hd, hm⟩
        cases q with
        | nil => exact absurd rfl hq
        | cons j q' =>
          obtain ⟨hj, hpre'⟩ := List.cons_prefix_cons.1 hpre
          subst hj
          simp only [deref, hc] at hd
          cases q' with
          | nil =>
            left
            cases c with
            | node d' cs' =>
              simp only [deref, Option.some.injEq] at hd
              subst hd
              exact hm.symm
          | cons k q'' =>
            right
            exact ih.2 ⟨k :: q'', m, by simp, hpre', hd, hm⟩

/-- C27: `visible()` on a node of a tree returns false exactly when some node on the way
from the node up to the root, the node included and the root excluded, has its visible
flag false. The flag of the root is never read: on the root `visible()` returns true,
whatever its flag, and an invisible root does not hide its descendants. -/
theorem visible_spec (T : LayerAndroid) (p : LayerRef) :
    visible T p = (deref T p).map (fun _ => (visibleFlagsBelowRoot T p).all id)
    ∧ visible T [] = some true
    ∧ (∀ n, deref T p = some n →
        (visible T p = some false ↔
          ∃ q m, q ≠ [] ∧ q <+: p ∧ deref T q = some m ∧ m.data.m_visible = false)
        ∧ (visible T p = some true ↔
          ∀ q m, q ≠ [] → q <+: p → deref T q = some m → m.data.m_visible = true))
    ∧ (visible Example.invisibleRootTree [0, 0] = some true
        ∧ visible Example.invisibleRootTree [0, 1] = some false) := by
  have hmain : visible T p = (deref T p).map (fun _ => (visibleFlagsBelowRoot T p).all id) := by
    unfold visible
    cases h : deref T p with
    | none => rfl
    | some n =>
      simp only [Option.map_some']
      have := visibleFrom_eq T p.reverse n (by simpa using h)
      simpa using this
  refine ⟨hmain, ?_, ?_, by decide⟩
  · cases T with
    | node d cs => simp [visible, deref, visibleFrom]
  · intro n hn
    have hmem := mem_visibleFlagsBelowRoot p T n hn
    rw [hmain, hn]
    simp only [Option.map_some', Option.some.injEq]
    constructor
    · rw [← hmem]
      simp [List.all_eq_false]
    · rw [List.all_eq_true]
      constructor
      · intro hall q m hq hpre hd
        by_contra hv
        have hf : m.data.m_visible = false := by simpa using hv
        have := hall false (hmem.2 ⟨q, m, hq, hpre, hd, hf⟩)
        simp at this
      · intro hall b hb
        cases b with
        | true => rfl
        | false =>
          obtain ⟨q, m, hq, hpre, hd, hm⟩ := hmem.1 hb
          have := hall q m hq hpre hd
          rw [hm] at this
          cases this

end LayerAndroid
end WebCore
